import Mathlib

/-!
Verification development for the cebackup archive lifecycle and retention
engine (src/cebackup/backup.py).

The Python source is shallowly embedded as follows.

The filesystem and external subprocesses are explicit inputs: the set of
encrypted archive files in the backup directory is a list of file names,
the ledger (metadata.json) is a list of entries, glob expansion is an
oracle function, and the exit status of the compression and encryption
subprocesses are boolean inputs.  Python float timestamps returned by
time.time() are modelled as rationals (every IEEE float is a rational and
the fractional part is what matters for the claims); int(time.time()) is
an integer input captured at archive start.  Python regular expressions
over filenames are modelled character by character over List Char, with
the \w class modelled as the ASCII word characters (letters, digits,
underscore): archive names produced by this program are ASCII.
Exceptions (BackupException, CalledProcessError) are modelled with
Except String.
-/

/-- ASCII model of the Python regex class \w (word character). -/
def isWordChar (c : Char) : Bool :=
  c.isAlphanum || c == '_'

/-- Character class [\w-] used for the archive name leading segment. -/
def prefChar (c : Char) : Bool :=
  isWordChar c || c == '-'

/-- Character class [a-z0-9.] closing the regex of
get_month_from_backup_file. -/
def tailChar (c : Char) : Bool :=
  c.isLower || c.isDigit || c == '.'

/-- Matcher for the regex fragment ".tar[a-z0-9.]*$" at the start of the
remaining input. -/
def checkTarTail : List Char → Bool
  | c1 :: c2 :: c3 :: c4 :: t =>
    (c1 == '.') && (c2 == 't') && (c3 == 'a') && (c4 == 'r') && t.all tailChar
  | _ => false

/-- Matcher for the regex fragment "\w+\.tar[a-z0-9.]*$": because a dot is
not a word character, the nonempty word-character run is forced to be the
maximal one, so backtracking is not needed. -/
def matchTail (r : List Char) : Bool :=
  let w := r.takeWhile isWordChar
  (!w.isEmpty) && checkTarTail (r.drop w.length)

/-- One attempt of the lazy scan of get_month_from_backup_file: does
"_(\d{10})_\w+\.tar[a-z0-9.]*$" match at the current position?  On
success it returns the ten captured digit characters. -/
def tryHere : List Char → Option (List Char)
  | [] => none
  | c :: rest =>
    if c = '_' then
      if (rest.take 10).length = 10 && (rest.take 10).all Char.isDigit then
        if (rest.drop 10).head? = some '_' then
          if matchTail (rest.drop 10).tail then some (rest.take 10) else none
        else none
      else none
    else none

/-- Backtracking matcher for the anchored Python regex
"[\w-]*?_(\d{10})_\w+\.tar[a-z0-9.]*$" used by
get_month_from_backup_file (re.match, lazy leading segment): positions
are tried left to right, each consumed leading character must be in
[\w-], and the first position where the rest of the pattern matches
yields the captured epoch digits. -/
def codeParse : List Char → Option (List Char)
  | [] => none
  | c :: rest =>
    match tryHere (c :: rest) with
    | some d => some d
    | none => if prefChar c then codeParse rest else none

/-- Numeric value of a list of decimal digit characters, as produced by
int() on the captured group. -/
def digitsToNat (ds : List Char) : Nat :=
  ds.foldl (fun n c => n * 10 + (c.toNat - 48)) 0

/-- Conversion of a count of days since 1970-01-01 to the proleptic
Gregorian calendar date in UTC; this is the standard civil-from-days
algorithm and models the year and month fields of time.gmtime. -/
def civilFromDays (days : Nat) : Nat × Nat :=
  let z := days + 719468
  let era := z / 146097
  let doe := z % 146097
  let yoe := (doe - doe / 1460 + doe / 36524 - doe / 146097) / 365
  let y := yoe + era * 400
  let doy := doe - (365 * yoe + yoe / 4 - yoe / 100)
  let mp := (5 * doy + 2) / 153
  let m := if mp < 10 then mp + 3 else mp - 9
  (if m ≤ 2 then y + 1 else y, m)

/-- Year and month, in UTC, of an epoch timestamp in seconds: the
tm_year and tm_mon fields of time.gmtime(epoch). -/
def gmtimeYM (epoch : Nat) : Nat × Nat :=
  civilFromDays (epoch / 86400)

/-- Month bucket string "{tm_year}-{tm_mon}" built by
get_month_from_backup_file. -/
def fmtYM (ym : Nat × Nat) : String :=
  toString ym.1 ++ "-" ++ toString ym.2

/-- Error message of the BackupException raised on a non-conforming
archive file name. -/
def invalidArchiveMsg : String := "Invalid archive name"

/-- Model of get_month_from_backup_file (backup.py lines 343-348): match
the file name against "[\w-]*?_(\d{10})_\w+\.tar[a-z0-9.]*$"; on success
return the "year-month" bucket of the captured epoch seconds in UTC,
otherwise raise BackupException("Invalid archive name"). -/
def get_month_from_backup_file (name : String) : Except String String :=
  match codeParse name.data with
  | some ds => Except.ok (fmtYM (gmtimeYM (digitsToNat ds)))
  | none => Except.error invalidArchiveMsg

/-- Truth value of an Except being a success. -/
def isOkE {α β : Type} (e : Except α β) : Bool :=
  match e with
  | Except.ok _ => true
  | Except.error _ => false

deriving instance DecidableEq for Except

/-- Matcher for the spec grammar fragment "(\.\w+)*$" allowing a current
partial word group: accepts word characters and dots where every dot is
followed by at least one word character. -/
def extsWord : List Char → Bool
  | [] => true
  | '.' :: c :: rest => isWordChar c && extsWord rest
  | c :: rest => isWordChar c && extsWord rest

/-- Matcher for the spec grammar fragment "(\.\w+)*$". -/
def extsFrom : List Char → Bool
  | [] => true
  | '.' :: c :: rest => isWordChar c && extsWord rest
  | _ => false

/-- Modelled from the spec: one attempt of the anchored tail
"_(\d{10})_\d{8}T\d{6}\.tar(\.\w+)*$" of the archive filename grammar of
section 6 at the current position. -/
def specTryHere (s : List Char) : Bool :=
  match s with
  | '_' :: rest =>
    let d := rest.take 10
    (d.length = 10 && d.all Char.isDigit) &&
      (match rest.drop 10 with
       | '_' :: r2 =>
         let a := r2.take 8
         (a.length = 8 && a.all Char.isDigit) &&
           (match r2.drop 8 with
            | 'T' :: r3 =>
              let b := r3.take 6
              (b.length = 6 && b.all Char.isDigit) &&
                (match r3.drop 6 with
                 | '.' :: 't' :: 'a' :: 'r' :: r4 => extsFrom r4
                 | _ => false)
            | _ => false)
       | _ => false)
  | _ => false

/-- Modelled from the spec: decision procedure for the archive filename
grammar "^[\w-]*?_(\d{10})_\d{8}T\d{6}\.tar(\.\w+)*$" stated in section 6
of the spec, with \w modelled as ASCII word characters. -/
def specMatchAux : List Char → Bool
  | [] => false
  | c :: rest => specTryHere (c :: rest) || (prefChar c && specMatchAux rest)

/-- Modelled from the spec: the archive filename grammar of section 6 as
a predicate on file names. -/
def specMatch (name : String) : Bool :=
  specMatchAux name.data

/-- Declarative reading of the language accepted by the regex of
get_month_from_backup_file: some decomposition into a [\w-]* segment, an
underscore, ten digits, an underscore and a "\w+\.tar[a-z0-9.]*" tail. -/
def TailLang (r : List Char) : Prop :=
  ∃ w t, r = w ++ ('.' :: 't' :: 'a' :: 'r' :: t) ∧ w ≠ [] ∧
    (∀ c ∈ w, isWordChar c = true) ∧ (∀ c ∈ t, tailChar c = true)

/-- Declarative language of the code regex
"[\w-]*?_(\d{10})_\w+\.tar[a-z0-9.]*$" of get_month_from_backup_file. -/
def CodeLang (s : List Char) : Prop :=
  ∃ p d r, s = p ++ '_' :: (d ++ '_' :: r) ∧
    (∀ c ∈ p, prefChar c = true) ∧
    (d.length = 10 ∧ ∀ c ∈ d, c.isDigit = true) ∧
    TailLang r

/-- Ledger entry of metadata.json: the dict built in Metadata.add with
keys archive, encrypted, open-checksum, created, touched.  The created
and touched values are modelled as rationals because Python stores
arbitrary time.time() values in them. -/
structure Entry where
  archive : String
  encrypted : String
  open_checksum : String
  created : Rat
  touched : Rat
deriving DecidableEq

/-- Sort key relation of Metadata.write: ascending touched timestamp. -/
def touchedLE (a b : Entry) : Prop :=
  a.touched ≤ b.touched

instance : DecidableRel touchedLE :=
  fun a b => inferInstanceAs (Decidable (a.touched ≤ b.touched))

instance : IsTotal Entry touchedLE :=
  ⟨fun a b => le_total a.touched b.touched⟩

instance : IsTrans Entry touchedLE :=
  ⟨fun _ _ _ hab hbc => le_trans hab hbc⟩

/-- Model of the in-place sort performed by Metadata.write (backup.py
line 135): the archive list ordered by ascending touched value, which is
also the serialization order of the persisted JSON document. -/
def writeSort (l : List Entry) : List Entry :=
  List.insertionSort touchedLE l

/-- Model of Metadata.get_archive / the _checksums dict lookup: the dict
comprehension of _set_checksums keeps the last entry for each checksum
key. -/
def Metadata.get_archive (l : List Entry) (chk : String) : Option Entry :=
  (l.filter (fun e => e.open_checksum == chk)).getLast?

/-- Model of Metadata.get_from_encrypted_name (backup.py lines 158-162):
linear scan for the first entry whose encrypted file name matches. -/
def Metadata.get_from_encrypted_name (l : List Entry) (name : String) : Option Entry :=
  l.find? (fun e => e.encrypted == name)

/-- Model of Metadata.remove (backup.py lines 164-166): pop the dict
entry for the checksum and remove that dict from the archive list (the
first structurally equal element, as Python list.remove does).  The
KeyError of a missing checksum is unreachable in the modelled flows, so
that case leaves the ledger unchanged. -/
def Metadata.remove (l : List Entry) (chk : String) : List Entry :=
  match Metadata.get_archive l chk with
  | some a => l.erase a
  | none => l

/-- Data of a BackupArchive object needed by the ledger: the creation
instant int(time.time()) captured once at construction and the name of
the compressed archive file. -/
structure ArchiveInfo where
  time : Int
  compressed_name : String
deriving DecidableEq

/-- Name of the encrypted output file (BackupArchive.path_encrypted). -/
def ArchiveInfo.path_encrypted (a : ArchiveInfo) : String :=
  a.compressed_name ++ ".gpg"

/-- Model of Metadata.add (backup.py lines 168-183): if the checksum is
already present only the touched field of its entry is set to the
current time.time() value (note: stored unconverted), otherwise a new
entry for the archive is appended with created and touched equal to the
archive creation instant. -/
def Metadata.add (l : List Entry) (chk : String) (archive : ArchiveInfo) (now : Rat) :
    List Entry :=
  match Metadata.get_archive l chk with
  | some _ =>
    l.map (fun e =>
      if e.open_checksum == chk then
        Entry.mk e.archive e.encrypted e.open_checksum e.created now
      else e)
  | none =>
    l ++ [Entry.mk archive.compressed_name archive.path_encrypted chk
      (archive.time : Rat) (archive.time : Rat)]

/-- Retention policy dict: prune_backups with keys keep_archives and
keep_days. -/
structure PrunePolicy where
  keep_archives : Nat
  keep_days : Nat
deriving DecidableEq

/-- Observable state of the backup directory: the encrypted archive
files present on disk and the ledger persisted in metadata.json. -/
structure World where
  disk : List String
  ledger : List Entry
deriving DecidableEq

/-- Walk state of the pruning loop of cleanup_backups: the keep_monthly
month keys recorded so far, the in-memory ledger and the files unlinked
so far. -/
structure PruneState where
  months : List String
  ledger : List Entry
  deleted : List String
deriving DecidableEq

/-- One iteration of the pruning loop (backup.py lines 306-322) on one
candidate file: derive the month bucket (which can raise), look up the
ledger entry by encrypted name, keep the first file of each month as the
month representative, skip files without a ledger entry, delete a file
whose entry was last touched before the age limit and drop its entry. -/
def pruneStep (lim : Rat) (st : PruneState) (f : String) : Except String PruneState :=
  match get_month_from_backup_file f with
  | Except.error e => Except.error e
  | Except.ok month =>
    let meta := Metadata.get_from_encrypted_name st.ledger f
    if st.months.contains month then
      match meta with
      | none => Except.ok st
      | some m =>
        if m.touched < lim then
          Except.ok (PruneState.mk st.months
            (Metadata.remove st.ledger m.open_checksum) (st.deleted ++ [f]))
        else Except.ok st
    else
      Except.ok (PruneState.mk (st.months ++ [month]) st.ledger st.deleted)

/-- The pruning loop over the candidate files, in order. -/
def pruneWalk (lim : Rat) (st : PruneState) : List String → Except String PruneState
  | [] => Except.ok st
  | f :: fs =>
    match pruneStep lim st f with
    | Except.error e => Except.error e
    | Except.ok st2 => pruneWalk lim st2 fs

/-- File name suffix of encrypted archives. -/
def gpgSuffix : String := ".gpg"

/-- Python str.startswith on file names. -/
def strStartsWith (s p : String) : Bool :=
  p.data.isPrefixOf s.data

/-- Python str.endswith on file names. -/
def strEndsWith (s p : String) : Bool :=
  p.data.isSuffixOf s.data

/-- Code point lexicographic strict comparison of strings as character
lists: the order Python uses to compare str values. -/
def strLtB : List Char → List Char → Bool
  | [], [] => false
  | [], _ :: _ => true
  | _ :: _, [] => false
  | a :: as, b :: bs =>
    if a.toNat < b.toNat then true
    else if b.toNat < a.toNat then false
    else strLtB as bs

/-- Descending file name order used by backups.sort(key=name,
reverse=True). -/
def strGE (a b : String) : Prop :=
  strLtB a.data b.data = false

instance : DecidableRel strGE :=
  fun a b => inferInstanceAs (Decidable (strLtB a.data b.data = false))

/-- Candidate selection of cleanup_backups (backup.py lines 296-301):
the files in the backup directory whose name starts with the archive
name prefix and ends with ".gpg", sorted by file name descending. -/
def pruneCandidates (pfx : String) (disk : List String) : List String :=
  List.insertionSort strGE
    (disk.filter (fun f => strStartsWith f pfx && strEndsWith f gpgSuffix))

/-- Diagnostic data of one pruning run: the file names deleted, the
final keep_monthly month keys, and how many times the ledger was
persisted. -/
structure CleanupInfo where
  deleted : List String
  months : List String
  writes : Nat
deriving DecidableEq

/-- Model of cleanup_backups (backup.py lines 285-323) over an existing
backup directory: list and sort the matching encrypted files, walk them
from the newest, skipping the first keep_archives names, with the age
limit time.time() - keep_days*86400, then persist the ledger exactly
once.  An invalid archive name raises out of the walk, in which case
nothing is persisted. -/
def cleanup_backups (pfx : String) (pol : PrunePolicy) (now : Rat) (w : World) :
    Except String (World × CleanupInfo) :=
  let bs := pruneCandidates pfx w.disk
  let lim := now - (pol.keep_days : Rat) * 86400
  match pruneWalk lim (PruneState.mk [] w.ledger []) (bs.drop pol.keep_archives) with
  | Except.error e => Except.error e
  | Except.ok st =>
    Except.ok (World.mk (w.disk.filter (fun f => !st.deleted.contains f))
      (writeSort st.ledger), CleanupInfo.mk st.deleted st.months 1)

/-- Error message of the BackupException raised when compression fails. -/
def compressErrMsg : String := "failed to compress archive"

/-- Error message modelling the CalledProcessError raised by
p.check_returncode() when gpg exits non-zero. -/
def gpgErrMsg : String := "gpg exited with non-zero status"

/-- Environment of one make_backup run: everything the surrounding
system feeds into the control flow of backup.py lines 186-282.  checksum
is the sha256 of the uncompressed tar built in this run, arch the
archive object, failedPaths the archive.failed set after the append
loop, hookFailure the failure flag set when a pre hook failed,
compressOk and gpgOk the exit status of the compression and encryption
subprocesses, now the time.time() value at Metadata.add, cleanupNow the
time.time() value inside cleanup_backups, pruneOpt the optional prune
policy and pfx the archive name prefix. -/
structure RunEnv where
  checksum : String
  arch : ArchiveInfo
  failedPaths : List String
  hookFailure : Bool
  compressOk : Bool
  gpgOk : Bool
  now : Rat
  cleanupNow : Rat
  pruneOpt : Option PrunePolicy
  pfx : String
deriving DecidableEq

/-- Fields of the Result namedtuple observed by the claims: ok, created,
plus a flag recording whether cleanup_backups was invoked during the
run. -/
structure RunOutcome where
  ok : Bool
  created : Bool
  cleanupRan : Bool
deriving DecidableEq

/-- Continuation of make_backup after the dedup check (backup.py lines
251-282): compress (fatal on failure), add the checksum entry and
persist the ledger, encrypt (fatal on failure, with the ledger already
persisted), record the encrypted file on disk, return early with a
not-ok created Result when paths failed to archive, otherwise run the
retention pass when configured. -/
def make_backup_rest (env : RunEnv) (w : World) (md : List Entry) :
    World × Except String RunOutcome :=
  if !env.compressOk then (w, Except.error compressErrMsg)
  else
    let md1 := Metadata.add md env.checksum env.arch env.now
    let w1 := World.mk w.disk (writeSort md1)
    if !env.gpgOk then (w1, Except.error gpgErrMsg)
    else
      let w2 := World.mk (w1.disk ++ [env.arch.path_encrypted]) w1.ledger
      if env.failedPaths.isEmpty then
        match env.pruneOpt with
        | some pol =>
          match cleanup_backups env.pfx pol env.cleanupNow w2 with
          | Except.ok (w3, _) => (w3, Except.ok (RunOutcome.mk (!env.hookFailure) true true))
          | Except.error e => (w2, Except.error e)
        | none => (w2, Except.ok (RunOutcome.mk (!env.hookFailure) true false))
      else (w2, Except.ok (RunOutcome.mk false true false))

/-- Model of make_backup (backup.py lines 186-282) from the point where
the checksum of the uncompressed archive is known.  If the checksum is
already in the ledger and its encrypted file exists, the file is
touched, the fresh tar is discarded, the entry touched time is refreshed
and the ledger persisted, and no compression, encryption or retention
runs.  If the entry is stale (file missing) it is dropped and the run
proceeds as if no match had been found. -/
def make_backup (env : RunEnv) (w : World) : World × Except String RunOutcome :=
  match Metadata.get_archive w.ledger env.checksum with
  | some existing =>
    if w.disk.contains existing.encrypted then
      let md1 := Metadata.add w.ledger env.checksum env.arch env.now
      (World.mk w.disk (writeSort md1),
        Except.ok (RunOutcome.mk (!env.hookFailure) false false))
    else
      make_backup_rest env w (Metadata.remove w.ledger env.checksum)
  | none => make_backup_rest env w w.ledger

/-- Source specification dict of the backup_sources config list: the
path key may be missing (KeyError in the source), skip_dirs defaults to
false. -/
structure SourceSpec where
  path : Option String
  skip_dirs : Bool
deriving DecidableEq

/-- Filesystem oracle for make_source_list: ~-expansion, glob expansion
with its recursive flag, directory test and path normalization are
functions of the surrounding filesystem state. -/
structure SourceFS where
  expanduser : String → String
  glob : String → Bool → List String
  isdir : String → Bool
  normpath : String → String

/-- Error message of the BackupException raised on a source spec with no
path key. -/
def invalidSourceMsg : String := "Invalid source specification"

/-- Model of make_source_list (backup.py lines 326-340): for each source
spec expand the user path, glob it (recursive unless skip_dirs), drop
directories when skip_dirs is set, normalize each match and append it to
the result in order.  A missing path key raises. -/
def make_source_list (fs : SourceFS) : List SourceSpec → Except String (List String)
  | [] => Except.ok []
  | src :: rest =>
    match src.path with
    | none => Except.error invalidSourceMsg
    | some p0 =>
      let pth := fs.expanduser p0
      let expanded := fs.glob pth (!src.skip_dirs)
      let kept := (expanded.filter (fun q => !(src.skip_dirs && fs.isdir q))).map fs.normpath
      match make_source_list fs rest with
      | Except.ok tl => Except.ok (kept ++ tl)
      | Except.error e => Except.error e

/-- Ascending code point lexicographic file name order used by
paths.sort(). -/
def strLE (a b : String) : Prop :=
  strLtB b.data a.data = false

instance : DecidableRel strLE :=
  fun a b => inferInstanceAs (Decidable (strLtB b.data a.data = false))

/-- Model of hooks.call_hooks: each resolved hook either produced a list
of stdout lines or failed (None); the union of the produced paths is
accumulated as a Python set, modelled as a duplicate-free list (set
iteration order is irrelevant because the caller sorts), together with
the all-hooks-succeeded flag. -/
def call_hooks (results : List (Option (List String))) : Bool × List String :=
  (results.all (fun r => r.isSome),
   (results.filterMap id).flatten.dedup)

/-- Path collection of make_backup (backup.py lines 207-215): the glob
expanded source paths, then the hook produced paths, sorted in place. -/
def collect_paths (fs : SourceFS) (sources : List SourceSpec)
    (hookResults : List (Option (List String))) : Except String (Bool × List String) :=
  match make_source_list fs sources with
  | Except.error e => Except.error e
  | Except.ok ps =>
    let hr := call_hooks hookResults
    Except.ok (hr.1, List.insertionSort strLE (ps ++ hr.2))

/-- Ledger mutation operations of the Metadata class reachable between a
load and the end of a run. -/
inductive LedgerOp where
  | add (chk : String) (archive : ArchiveInfo) (now : Rat)
  | remove (chk : String)
  | write
deriving DecidableEq

/-- Application of one ledger operation to the in-memory archive list;
write also reorders the in-memory list, as the in-place sort of
Metadata.write does. -/
def applyOp (l : List Entry) : LedgerOp → List Entry
  | LedgerOp.add chk archive now => Metadata.add l chk archive now
  | LedgerOp.remove chk => Metadata.remove l chk
  | LedgerOp.write => writeSort l

/-- Application of a sequence of ledger operations after a load. -/
def applyOps (ops : List LedgerOp) (l : List Entry) : List Entry :=
  ops.foldl applyOp l

/-- Modelled from the spec: the month buckets of a list of file names,
in order, skipping unparsable names (sections 4.5 step 3). -/
def monthsOf (l : List String) : List String :=
  l.filterMap (fun f => (get_month_from_backup_file f).toOption)

/-- Modelled from the spec: the closed-form deletion rule of section 4.5
steps 4-6 and claim C1 for one candidate file, given the files walked
before it: its month bucket was already seen among earlier candidates,
a ledger entry for its encrypted name exists in the original ledger, and
that entry was last touched strictly before the age limit. -/
def spec_delete_cond (L0 : List Entry) (lim : Rat) (prior : List String) (f : String) :
    Bool :=
  (match get_month_from_backup_file f with
   | Except.ok m => (monthsOf prior).contains m
   | Except.error _ => false) &&
  (match L0.find? (fun e => e.encrypted == f) with
   | some e => decide (e.touched < lim)
   | none => false)

/-- Modelled from the spec: the list of candidate files the closed-form
rule deletes, walking the candidates in order. -/
def spec_deleted (L0 : List Entry) (lim : Rat) :
    List String → List String → List String
  | _, [] => []
  | prior, f :: fs =>
    (if spec_delete_cond L0 lim prior f then [f] else []) ++
      spec_deleted L0 lim (prior ++ [f]) fs

/-! Order properties of the code point comparison, used to sort file and
path name lists the way Python sorts str lists. -/

theorem strLtB_total : ∀ as bs : List Char, strLtB as bs = false ∨ strLtB bs as = false := by
  intro as
  induction as with
  | nil =>
    intro bs
    cases bs with
    | nil => left; rfl
    | cons b bs => right; rfl
  | cons a as ih =>
    intro bs
    cases bs with
    | nil => left; rfl
    | cons b bs =>
      rcases Nat.lt_trichotomy a.toNat b.toNat with h | h | h
      · right
        simp [strLtB, h, Nat.lt_asymm h]
      · simp [strLtB, h, Nat.lt_irrefl]
        exact ih bs
      · left
        simp [strLtB, h, Nat.lt_asymm h]

theorem strLtB_neg_trans :
    ∀ as bs cs : List Char, strLtB as bs = false → strLtB bs cs = false →
      strLtB as cs = false := by
  intro as
  induction as with
  | nil =>
    intro bs cs h1 h2
    cases bs with
    | nil => exact h2
    | cons b bs => simp [strLtB] at h1
  | cons a as ih =>
    intro bs cs h1 h2
    cases bs with
    | nil =>
      cases cs with
      | nil => rfl
      | cons c cs => simp [strLtB] at h2
    | cons b bs =>
      cases cs with
      | nil => rfl
      | cons c cs =>
        simp only [strLtB] at h1 h2 ⊢
        by_cases hab : a.toNat < b.toNat
        · simp [hab] at h1
        · by_cases hbc : b.toNat < c.toNat
          · simp [hbc] at h2
          · have hac : ¬ a.toNat < c.toNat := by omega
            simp only [hab, hbc, if_false] at h1 h2
            simp only [hac, if_false]
            by_cases hca : c.toNat < a.toNat
            · simp [hca]
            · simp only [hca, if_false]
              have hba : b.toNat = a.toNat := by
                by_cases h : b.toNat < a.toNat
                · omega
                · simp [h] at h1
                  omega
              have hcb : c.toNat = b.toNat := by
                by_cases h : c.toNat < b.toNat
                · omega
                · simp [h] at h2
                  omega
              have h1r : strLtB as bs = false := by
                have : ¬ b.toNat < a.toNat := by omega
                simpa [this] using h1
              have h2r : strLtB bs cs = false := by
                have : ¬ c.toNat < b.toNat := by omega
                simpa [this] using h2
              exact ih bs cs h1r h2r

instance : IsTotal String strGE :=
  ⟨fun a b => strLtB_total a.data b.data⟩

instance : IsTrans String strGE :=
  ⟨fun a b c hab hbc => strLtB_neg_trans a.data b.data c.data hab hbc⟩

instance : IsTotal String strLE :=
  ⟨fun a b => (strLtB_total a.data b.data).symm⟩

instance : IsTrans String strLE :=
  ⟨fun a b c hab hbc => strLtB_neg_trans c.data b.data a.data hbc hab⟩

/-! Equivalence of the backtracking matcher of get_month_from_backup_file
with the declarative language of its regex. -/

theorem takeWhile_append_cons (p : Char → Bool) :
    ∀ (w : List Char) (h : Char) (t : List Char), (∀ c ∈ w, p c = true) → p h = false →
      (w ++ h :: t).takeWhile p = w := by
  intro w
  induction w with
  | nil =>
    intro h t _ hph
    simp [List.takeWhile, hph]
  | cons a w ih =>
    intro h t hall hph
    have ha : p a = true := hall a (by simp)
    rw [List.cons_append, List.takeWhile_cons_of_pos ha,
      ih h t (fun c hc => hall c (by simp [hc])) hph]

theorem drop_takeWhile_length (p : Char → Bool) :
    ∀ r : List Char, r.drop (r.takeWhile p).length = r.dropWhile p := by
  intro r
  induction r with
  | nil => rfl
  | cons a r ih =>
    by_cases ha : p a = true
    · simp only [List.takeWhile, List.dropWhile, ha]
      simpa using ih
    · have ha2 : p a = false := by simpa using ha
      simp [List.takeWhile, List.dropWhile, ha2]

theorem checkTarTail_iff (l : List Char) :
    checkTarTail l = true ↔
      ∃ t, l = '.' :: 't' :: 'a' :: 'r' :: t ∧ ∀ c ∈ t, tailChar c = true := by
  constructor
  · intro h
    match l, h with
    | c1 :: c2 :: c3 :: c4 :: t, h =>
      simp only [checkTarTail, Bool.and_eq_true, beq_iff_eq, List.all_eq_true] at h
      obtain ⟨⟨⟨⟨h1, h2⟩, h3⟩, h4⟩, h5⟩ := h
      exact ⟨t, by rw [h1, h2, h3, h4], h5⟩
  · rintro ⟨t, rfl, ht⟩
    simp only [checkTarTail, Bool.and_eq_true, beq_iff_eq, List.all_eq_true]
    exact ⟨by decide, ht⟩

theorem matchTail_iff (r : List Char) : matchTail r = true ↔ TailLang r := by
  constructor
  · intro h
    simp only [matchTail, Bool.and_eq_true] at h
    obtain ⟨hw, htar⟩ := h
    rw [drop_takeWhile_length] at htar
    obtain ⟨t, hd, ht⟩ := (checkTarTail_iff _).mp htar
    refine ⟨r.takeWhile isWordChar, t, ?_, ?_, ?_, ht⟩
    · conv_lhs => rw [← List.takeWhile_append_dropWhile (p := isWordChar) (l := r)]
      rw [hd]
    · intro hnil
      rw [hnil] at hw
      simp at hw
    · intro c hc
      exact List.mem_takeWhile_imp hc
  · rintro ⟨w, t, rfl, hw, hallw, ht⟩
    have htw : (w ++ '.' :: 't' :: 'a' :: 'r' :: t).takeWhile isWordChar = w :=
      takeWhile_append_cons isWordChar w '.' ('t' :: 'a' :: 'r' :: t) hallw (by decide)
    simp only [matchTail, htw, Bool.and_eq_true]
    constructor
    · cases w with
      | nil => exact absurd rfl hw
      | cons a w => simp
    · rw [List.drop_left]
      exact (checkTarTail_iff _).mpr ⟨t, rfl, ht⟩

theorem tryHere_some_iff (s : List Char) (d : List Char) :
    tryHere s = some d ↔
      ∃ r, s = '_' :: (d ++ '_' :: r) ∧ d.length = 10 ∧
        (∀ c ∈ d, c.isDigit = true) ∧ matchTail r = true := by
  constructor
  · intro h
    cases s with
    | nil => exact absurd h (by simp [tryHere])
    | cons c rest =>
      simp only [tryHere] at h
      by_cases hcu : c = '_'
      · rw [if_pos hcu] at h
        by_cases hlen : ((rest.take 10).length = 10 && (rest.take 10).all Char.isDigit) = true
        · rw [if_pos hlen] at h
          cases hdrop : rest.drop 10 with
          | nil => rw [hdrop] at h; exact absurd h (by simp)
          | cons c2 r2 =>
            rw [hdrop] at h
            by_cases hc2 : c2 = '_'
            · simp only [List.head?, hc2, if_pos rfl, List.tail] at h
              by_cases hmt : matchTail r2 = true
              · rw [if_pos hmt] at h
                obtain rfl : rest.take 10 = d := by simpa using h
                simp only [Bool.and_eq_true, decide_eq_true_eq, List.all_eq_true] at hlen
                refine ⟨r2, ?_, hlen.1, hlen.2, hmt⟩
                have hrest : rest = rest.take 10 ++ '_' :: r2 := by
                  conv_lhs => rw [← List.take_append_drop 10 rest]
                  rw [hdrop, hc2]
                rw [hcu]
                exact congrArg _ hrest
              · rw [if_neg hmt] at h
                exact absurd h (by simp)
            · have hcond : ¬ ((c2 :: r2).head? = some '_') := by
                simp [List.head?, hc2]
              rw [if_neg hcond] at h
              exact absurd h (by simp)
        · rw [if_neg hlen] at h
          exact absurd h (by simp)
      · rw [if_neg hcu] at h
        exact absurd h (by simp)
  · rintro ⟨r, rfl, hlen, hdig, hmt⟩
    have htake : (d ++ '_' :: r).take 10 = d := List.take_left' hlen
    have hdrop : (d ++ '_' :: r).drop 10 = '_' :: r := List.drop_left' hlen
    simp only [tryHere, htake, hdrop, hmt, hlen, List.all_eq_true]
    simp only [if_true, decide_True, Bool.true_and]
    rw [if_pos (List.all_eq_true.mpr hdig)]
    simp only [List.head?, List.tail]
    simp only [if_true, hmt, if_pos]

theorem codeParse_lang_of_isSome :
    ∀ s : List Char, (codeParse s).isSome = true → CodeLang s := by
  intro s
  induction s with
  | nil => intro h; simp [codeParse] at h
  | cons c rest ih =>
    intro h
    cases htry : tryHere (c :: rest) with
    | some d =>
      obtain ⟨r, hs, hlen, hdig, hmt⟩ := (tryHere_some_iff _ _).mp htry
      obtain ⟨rfl, hrest⟩ : c = '_' ∧ rest = d ++ '_' :: r := by
        cases hs
        exact ⟨rfl, rfl⟩
      exact ⟨[], d, r, by rw [hrest]; rfl, by simp, ⟨hlen, hdig⟩,
        (matchTail_iff r).mp hmt⟩
    | none =>
      simp only [codeParse, htry] at h
      by_cases hpc : prefChar c = true
      · rw [if_pos hpc] at h
        obtain ⟨p, d, r, hs, hp, hd, ht⟩ := ih h
        exact ⟨c :: p, d, r, by rw [hs]; rfl,
          fun x hx => by
            rcases List.mem_cons.mp hx with hx | hx
            · rw [hx]; exact hpc
            · exact hp x hx,
          hd, ht⟩
      · rw [if_neg hpc] at h
        simp at h

theorem codeParse_isSome_of_lang :
    ∀ s : List Char, CodeLang s → (codeParse s).isSome = true := by
  intro s
  induction s with
  | nil =>
    rintro ⟨p, d, r, hs, hp, hd, ht⟩
    exact absurd hs (by simp)
  | cons c rest ih =>
    rintro ⟨p, d, r, hs, hp, hd, ht⟩
    cases htry : tryHere (c :: rest) with
    | some d2 => simp [codeParse, htry]
    | none =>
      cases p with
      | nil =>
        exfalso
        have hs2 : c = '_' ∧ rest = d ++ '_' :: r := by
          cases hs
          exact ⟨rfl, rfl⟩
        have : tryHere (c :: rest) = some d := by
          apply (tryHere_some_iff _ _).mpr
          exact ⟨r, by rw [hs2.1, hs2.2], hd.1, hd.2, (matchTail_iff r).mpr ht⟩
        rw [this] at htry
        exact absurd htry (by simp)
      | cons c0 p2 =>
        have hs2 : c0 = c ∧ rest = p2 ++ '_' :: (d ++ '_' :: r) := by
          cases hs
          exact ⟨rfl, rfl⟩
        have hpc : prefChar c = true := by
          rw [← hs2.1]
          exact hp c0 (by simp)
        simp only [codeParse, htry, if_pos hpc]
        exact ih ⟨p2, d, r, hs2.2, fun x hx => hp x (by simp [hx]), hd, ht⟩

theorem codeParse_isSome_iff (s : List Char) :
    (codeParse s).isSome = true ↔ CodeLang s :=
  ⟨codeParse_lang_of_isSome s, codeParse_isSome_of_lang s⟩

/-- File name of a concrete archive accepted by the parser in the code
but rejected by the archive filename grammar stated in the spec. -/
def c6name : String := "a_1000000000_x.tar"

/-- Month bucket of epoch 1000000000 (2001-09-09T01:46:40Z). -/
def c6month : String := "2001-9"

/-- C6 (counterexample): the file name a_1000000000_x.tar does not match
the spec grammar ^[\w-]*?_(\d{10})_\d{8}T\d{6}\.tar(\.\w+)*$, yet
get_month_from_backup_file accepts it and returns the month 2001-9
instead of raising the Invalid archive name error; hence the error is
not raised for exactly the names outside the spec grammar. -/
theorem c6_counterexample :
    specMatch c6name = false ∧
      get_month_from_backup_file c6name = Except.ok c6month :=
  ⟨by decide, by decide⟩

/-- C6 (amended): get_month_from_backup_file raises the error
"Invalid archive name" for exactly those filenames outside the language
of the regex the code actually uses, [\w-]*?_(\d{10})_\w+\.tar[a-z0-9.]*$
(a strict superset of the grammar stated in the spec), and for every
conforming filename it returns the (year, month) bucket derived in UTC
from the lazily captured ten-digit epoch-seconds group, which is the
sole timestamp source used for month-bucketing. -/
theorem c6_get_month_characterization :
    ∀ name : String,
      (isOkE (get_month_from_backup_file name) = true ↔ CodeLang name.data) ∧
      (get_month_from_backup_file name = Except.error invalidArchiveMsg ↔
        ¬ CodeLang name.data) ∧
      (∀ d, codeParse name.data = some d →
        get_month_from_backup_file name = Except.ok (fmtYM (gmtimeYM (digitsToNat d)))) := by
  intro name
  refine ⟨?_, ?_, ?_⟩
  · rw [← codeParse_isSome_iff]
    unfold get_month_from_backup_file
    cases h : codeParse name.data <;> simp [isOkE]
  · rw [← codeParse_isSome_iff]
    unfold get_month_from_backup_file
    cases h : codeParse name.data <;> simp [isOkE]
  · intro d h
    unfold get_month_from_backup_file
    rw [h]

/-- C6 (witness): the amended characterization applied to the concrete
name a_1000000000_x.tar, whose parse succeeds. -/
theorem c6_witness : CodeLang c6name.data :=
  ((c6_get_month_characterization c6name).1).mp (by decide)

/-! Ledger invariants: uniqueness of checksums and persist order. -/

theorem get_archive_eq_some {l : List Entry} {chk : String} {e : Entry}
    (h : Metadata.get_archive l chk = some e) : e ∈ l ∧ e.open_checksum = chk := by
  unfold Metadata.get_archive at h
  have hmem := List.mem_of_getLast?_eq_some h
  have hpred := List.of_mem_filter hmem
  exact ⟨List.mem_of_mem_filter hmem, by simpa using hpred⟩

theorem get_archive_eq_none_iff (l : List Entry) (chk : String) :
    Metadata.get_archive l chk = none ↔ ∀ e ∈ l, e.open_checksum ≠ chk := by
  unfold Metadata.get_archive
  rw [List.getLast?_eq_none_iff, List.filter_eq_nil_iff]
  constructor
  · intro h e he
    have := h e he
    simpa using this
  · intro h e he
    simpa using h e he

theorem Metadata.add_update {l : List Entry} {chk : String} {archive : ArchiveInfo}
    {now : Rat} {e : Entry} (h : Metadata.get_archive l chk = some e) :
    Metadata.add l chk archive now =
      l.map (fun x =>
        if x.open_checksum == chk then
          Entry.mk x.archive x.encrypted x.open_checksum x.created now
        else x) := by
  unfold Metadata.add
  rw [h]

theorem Metadata.add_new {l : List Entry} {chk : String} {archive : ArchiveInfo}
    {now : Rat} (h : Metadata.get_archive l chk = none) :
    Metadata.add l chk archive now =
      l ++ [Entry.mk archive.compressed_name archive.path_encrypted chk
        (archive.time : Rat) (archive.time : Rat)] := by
  unfold Metadata.add
  rw [h]

theorem Metadata.remove_some {l : List Entry} {chk : String} {e : Entry}
    (h : Metadata.get_archive l chk = some e) :
    Metadata.remove l chk = l.erase e := by
  unfold Metadata.remove
  rw [h]

theorem Metadata.remove_none {l : List Entry} {chk : String}
    (h : Metadata.get_archive l chk = none) :
    Metadata.remove l chk = l := by
  unfold Metadata.remove
  rw [h]

theorem add_update_map_checksum (l : List Entry) (chk : String) (now : Rat) :
    (l.map (fun x =>
      if x.open_checksum == chk then
        Entry.mk x.archive x.encrypted x.open_checksum x.created now
      else x)).map (fun e => e.open_checksum) = l.map (fun e => e.open_checksum) := by
  rw [List.map_map]
  apply List.map_congr_left
  intro a _
  by_cases hc : a.open_checksum = chk
  · simp [hc]
  · simp [hc]

theorem checksum_nodup_applyOp (l : List Entry) (op : LedgerOp)
    (h : (l.map (fun e => e.open_checksum)).Nodup) :
    ((applyOp l op).map (fun e => e.open_checksum)).Nodup := by
  cases op with
  | add chk archive now =>
    show ((Metadata.add l chk archive now).map (fun e => e.open_checksum)).Nodup
    cases hget : Metadata.get_archive l chk with
    | some e =>
      rw [Metadata.add_update hget, add_update_map_checksum]
      exact h
    | none =>
      rw [Metadata.add_new hget, List.map_append]
      have hnot : chk ∉ l.map (fun e => e.open_checksum) := by
        intro hmem
        obtain ⟨e, he, hc⟩ := List.mem_map.mp hmem
        exact ((get_archive_eq_none_iff l chk).mp hget e he) hc
      simp only [List.map_cons, List.map_nil]
      rw [List.nodup_append]
      exact ⟨h, List.nodup_singleton chk, by
        intro a ha hb
        simp only [List.mem_singleton] at hb
        rw [hb] at ha
        exact hnot ha⟩
  | remove chk =>
    show ((Metadata.remove l chk).map (fun e => e.open_checksum)).Nodup
    cases hget : Metadata.get_archive l chk with
    | some e =>
      rw [Metadata.remove_some hget]
      exact ((List.erase_sublist e l).map (fun e => e.open_checksum)).nodup h
    | none =>
      rw [Metadata.remove_none hget]
      exact h
  | write =>
    show ((writeSort l).map (fun e => e.open_checksum)).Nodup
    exact (((List.perm_insertionSort touchedLE l).map (fun e => e.open_checksum)).nodup_iff).mpr h

/-- C7: starting from a ledger with pairwise distinct content hashes,
any sequence of Metadata operations (add, remove, write) preserves the
at-most-one-entry-per-hash invariant, and every persist serializes the
entries sorted by ascending touched timestamp. -/
theorem c7_ledger_invariant :
    ∀ (ops : List LedgerOp) (l0 : List Entry),
      (l0.map (fun e => e.open_checksum)).Nodup →
      ((applyOps ops l0).map (fun e => e.open_checksum)).Nodup ∧
        List.Sorted touchedLE (writeSort (applyOps ops l0)) := by
  intro ops
  induction ops with
  | nil =>
    intro l0 h
    exact ⟨h, List.sorted_insertionSort touchedLE l0⟩
  | cons op ops ih =>
    intro l0 h
    have hstep := checksum_nodup_applyOp l0 op h
    have := ih (applyOp l0 op) hstep
    exact ⟨this.1, this.2⟩

/-- Concrete ledger operation sequence for the C7 witness. -/
def c7ops : List LedgerOp :=
  [LedgerOp.add "aaaa" (ArchiveInfo.mk 5 "t_5_x.tar.gz") 6, LedgerOp.write]

/-- C7 (witness): the invariant applied to a concrete operation sequence
on the empty ledger. -/
theorem c7_witness :
    ((applyOps c7ops []).map (fun e => e.open_checksum)).Nodup ∧
      List.Sorted touchedLE (writeSort (applyOps c7ops [])) :=
  c7_ledger_invariant c7ops [] (by simp)

/-- Ledger entry whose checksum the second backup run reproduces. -/
def c9entry : Entry :=
  Entry.mk "t_1609459100_x.tar.gz" "t_1609459100_x.tar.gz.gpg" "deadbeef"
    1609459100 1609459100

/-- Archive object of the second backup run. -/
def c9arch : ArchiveInfo := ArchiveInfo.mk 1609459300 "t_1609459300_y.tar.gz"

/-- The time.time() value of the second run: a non-integral float,
1609459200.5, as a rational. -/
def c9time : Rat := mkRat 3218918401 2

/-- C9: on a dedup hit Metadata.add stores the raw time.time() value in
the touched field; at a non-integral time the persisted touched value is
not an integer, contradicting the spec (created and touched are integer
epoch seconds).  This evaluates the code at the failing input. -/
theorem c9_touched_not_integer :
    ∃ e, e ∈ Metadata.add [c9entry] "deadbeef" c9arch c9time ∧
      e.touched = c9time ∧ ∀ n : Int, (n : Rat) ≠ e.touched := by
  refine ⟨Entry.mk c9entry.archive c9entry.encrypted c9entry.open_checksum
    c9entry.created c9time, by decide, rfl, ?_⟩
  intro n h
  have hden := congrArg Rat.den h
  rw [Rat.den_intCast] at hden
  have : c9time.den = 2 := by decide
  rw [this] at hden
  exact absurd hden (by decide)

/-! Path collection. -/

/-- Filesystem oracle in which globbing any pattern returns the pattern
itself as its only match: the behavior of glob on a literal path that
exists. -/
def c5fs : SourceFS := SourceFS.mk id (fun p _ => [p]) (fun _ => false) id

/-- A literal source path. -/
def c5path : String := "/a"

/-- Two source specs naming the same existing path. -/
def c5sources : List SourceSpec :=
  [SourceSpec.mk (some c5path) false, SourceSpec.mk (some c5path) false]

/-- C5 (counterexample): with two source specs naming the same existing
path, the collected path list passed to archiving contains that path
twice, so duplicates across sources are not collapsed and the list is
not duplicate-free. -/
theorem c5_counterexample :
    collect_paths c5fs c5sources [] = Except.ok (true, [c5path, c5path]) ∧
      ¬ List.Nodup [c5path, c5path] :=
  ⟨by decide, by decide⟩

/-- C5 (amended): the collected path list passed to archiving is the
concatenation of the glob-expanded source paths (in source order,
duplicates preserved) and the hook-produced paths (deduplicated among
themselves only), sorted code point lexicographically; it may contain
repeated paths when sources overlap each other or the hook output.  Two
collections over an unchanged filesystem still produce identical lists,
since the computation is a function of the filesystem oracle. -/
theorem c5_collect_sorted_perm :
    ∀ (fs : SourceFS) (sources : List SourceSpec)
      (hookResults : List (Option (List String))) (ok : Bool) (ps : List String),
      collect_paths fs sources hookResults = Except.ok (ok, ps) →
      List.Sorted strLE ps ∧
        ∃ ms, make_source_list fs sources = Except.ok ms ∧
          ps.Perm (ms ++ (call_hooks hookResults).2) := by
  intro fs sources hookResults ok ps h
  unfold collect_paths at h
  cases hmsl : make_source_list fs sources with
  | error e => rw [hmsl] at h; exact absurd h (by simp)
  | ok ms =>
    rw [hmsl] at h
    simp only [Except.ok.injEq, Prod.mk.injEq] at h
    obtain ⟨-, hps⟩ := h
    refine ⟨?_, ms, rfl, ?_⟩
    · rw [← hps]
      exact List.sorted_insertionSort strLE _
    · rw [← hps]
      exact List.perm_insertionSort strLE _

/-- C5 (witness): the amended characterization applied to the duplicate
source configuration of the counterexample. -/
theorem c5_witness :
    List.Sorted strLE [c5path, c5path] ∧
      ∃ ms, make_source_list c5fs c5sources = Except.ok ms ∧
        List.Perm [c5path, c5path] (ms ++ (call_hooks []).2) :=
  c5_collect_sorted_perm c5fs c5sources [] true [c5path, c5path] (by decide)

/-! The pruning walk: step equations and ledger filtering lemmas. -/

theorem pruneStep_invalid {lim : Rat} {st : PruneState} {f : String} {e : String}
    (h : get_month_from_backup_file f = Except.error e) :
    pruneStep lim st f = Except.error e := by
  unfold pruneStep
  rw [h]

theorem pruneStep_newmonth {lim : Rat} {st : PruneState} {f month : String}
    (h : get_month_from_backup_file f = Except.ok month)
    (hm : st.months.contains month = false) :
    pruneStep lim st f = Except.ok (PruneState.mk (st.months ++ [month]) st.ledger st.deleted) := by
  unfold pruneStep
  rw [h]
  have hmem : month ∉ st.months := by simpa using hm
  simp [hmem]

theorem pruneStep_nometa {lim : Rat} {st : PruneState} {f month : String}
    (h : get_month_from_backup_file f = Except.ok month)
    (hm : st.months.contains month = true)
    (hmeta : Metadata.get_from_encrypted_name st.ledger f = none) :
    pruneStep lim st f = Except.ok st := by
  unfold pruneStep
  rw [h]
  have hmem : month ∈ st.months := by simpa using hm
  simp [hmem, hmeta]

theorem pruneStep_old {lim : Rat} {st : PruneState} {f month : String} {m : Entry}
    (h : get_month_from_backup_file f = Except.ok month)
    (hm : st.months.contains month = true)
    (hmeta : Metadata.get_from_encrypted_name st.ledger f = some m)
    (hold : m.touched < lim) :
    pruneStep lim st f = Except.ok (PruneState.mk st.months
      (Metadata.remove st.ledger m.open_checksum) (st.deleted ++ [f])) := by
  unfold pruneStep
  rw [h]
  have hmem : month ∈ st.months := by simpa using hm
  simp [hmem, hmeta, hold]

theorem pruneStep_young {lim : Rat} {st : PruneState} {f month : String} {m : Entry}
    (h : get_month_from_backup_file f = Except.ok month)
    (hm : st.months.contains month = true)
    (hmeta : Metadata.get_from_encrypted_name st.ledger f = some m)
    (hyoung : ¬ m.touched < lim) :
    pruneStep lim st f = Except.ok st := by
  unfold pruneStep
  rw [h]
  have hmem : month ∈ st.months := by simpa using hm
  simp [hmem, hmeta, hyoung]

theorem isOkE_exists {e : Except String String} (h : isOkE e = true) :
    ∃ m, e = Except.ok m := by
  cases e with
  | ok m => exact ⟨m, rfl⟩
  | error m => simp [isOkE] at h

theorem find_enc_filter (L : List Entry) (ds : List String) (f : String)
    (hf : f ∉ ds) :
    (L.filter (fun e => !ds.contains e.encrypted)).find? (fun e => e.encrypted == f) =
      L.find? (fun e => e.encrypted == f) := by
  induction L with
  | nil => rfl
  | cons e L ih =>
    rw [List.filter_cons]
    by_cases hkeep : ds.contains e.encrypted = true
    · have hne : ¬ ((e.encrypted == f) = true) := by
        simp only [beq_iff_eq]
        intro hef
        exact hf (hef ▸ (List.elem_iff.mp hkeep))
      rw [if_neg (by simpa using List.elem_iff.mp hkeep)]
      rw [List.find?_cons]
      have : (e.encrypted == f) = false := by simpa using hne
      rw [this]
      exact ih
    · rw [if_pos (by simpa using fun hmem => hkeep (List.elem_iff.mpr hmem))]
      rw [List.find?_cons, List.find?_cons]
      cases hpe : (e.encrypted == f) with
      | true => rfl
      | false => exact ih

theorem filter_eq_singleton {l : List Entry} {e : Entry} {p : Entry → Bool}
    (hl : l.Nodup) (he : e ∈ l) (hp : p e = true)
    (huniq : ∀ x ∈ l, p x = true → x = e) : l.filter p = [e] := by
  induction l with
  | nil => exact absurd he (by simp)
  | cons a l ih =>
    rw [List.nodup_cons] at hl
    by_cases hae : a = e
    · subst hae
      rw [List.filter_cons_of_pos hp]
      have : l.filter p = [] := by
        rw [List.filter_eq_nil_iff]
        intro x hx hpx
        exact hl.1 ((huniq x (by simp [hx]) hpx) ▸ hx)
      rw [this]
    · have hpa : ¬ (p a = true) := by
        intro hpa
        exact hae (huniq a (by simp) hpa)
      rw [List.filter_cons_of_neg hpa]
      have hel : e ∈ l := by
        rcases List.mem_cons.mp he with h | h
        · exact absurd h.symm hae
        · exact h
      exact ih hl.2 hel (fun x hx hpx => huniq x (by simp [hx]) hpx)

theorem contains_eq_decide_mem (l : List String) (a : String) :
    l.contains a = decide (a ∈ l) := by
  show List.elem a l = decide (a ∈ l)
  rw [List.elem_eq_mem]

theorem remove_filter (L0 : List Entry) (ds : List String) (f : String) (m : Entry)
    (hchk : (L0.map (fun e => e.open_checksum)).Nodup)
    (henc : (L0.map (fun e => e.encrypted)).Nodup)
    (hf : f ∉ ds)
    (hm : L0.find? (fun e => e.encrypted == f) = some m) :
    Metadata.remove (L0.filter (fun e => !ds.contains e.encrypted)) m.open_checksum =
      L0.filter (fun e => !(ds ++ [f]).contains e.encrypted) := by
  have hmem : m ∈ L0 := List.mem_of_find?_eq_some hm
  have hmf : m.encrypted = f := by simpa using List.find?_some hm
  have hLnodup : L0.Nodup := List.Nodup.of_map _ hchk
  have hmp : (!ds.contains m.encrypted) = true := by
    rw [hmf, contains_eq_decide_mem]
    simpa using hf
  have hmcur : m ∈ L0.filter (fun e => !ds.contains e.encrypted) :=
    List.mem_filter.mpr ⟨hmem, hmp⟩
  have hsingle : (L0.filter (fun e => !ds.contains e.encrypted)).filter
      (fun e => e.open_checksum == m.open_checksum) = [m] := by
    apply filter_eq_singleton (hLnodup.filter _) hmcur (by simp)
    intro x hx hqx
    exact List.inj_on_of_nodup_map hchk (List.mem_of_mem_filter hx) hmem
      (by simpa using hqx)
  have hga : Metadata.get_archive (L0.filter (fun e => !ds.contains e.encrypted))
      m.open_checksum = some m := by
    unfold Metadata.get_archive
    rw [hsingle]
    rfl
  rw [Metadata.remove_some hga]
  rw [(hLnodup.filter _).erase_eq_filter m, List.filter_filter]
  apply List.filter_congr
  intro a ha
  by_cases haf : a.encrypted = f
  · have ham : a = m :=
      List.inj_on_of_nodup_map henc ha hmem (haf.trans hmf.symm)
    rw [ham]
    simp [contains_eq_decide_mem, List.mem_append, hmf]
  · have ham : a ≠ m := fun h => haf (by rw [h, hmf])
    have hbne : (a != m) = true := by simpa using ham
    rw [hbne]
    simp only [Bool.true_and]
    rw [contains_eq_decide_mem, contains_eq_decide_mem]
    by_cases hds : a.encrypted ∈ ds
    · simp [hds, List.mem_append]
    · simp [hds, List.mem_append, haf]

theorem monthsOf_append (a b : List String) :
    monthsOf (a ++ b) = monthsOf a ++ monthsOf b :=
  List.filterMap_append a b _

theorem monthsOf_cons_ok {f month : String}
    (h : get_month_from_backup_file f = Except.ok month) (l : List String) :
    monthsOf (f :: l) = month :: monthsOf l := by
  unfold monthsOf
  rw [List.filterMap_cons]
  rw [h]
  rfl

theorem spec_delete_cond_iff (L0 : List Entry) (lim : Rat) (prior : List String)
    (f : String) :
    spec_delete_cond L0 lim prior f = true ↔
      (∃ month, get_month_from_backup_file f = Except.ok month ∧
        month ∈ monthsOf prior) ∧
      (∃ e, L0.find? (fun x => x.encrypted == f) = some e ∧ e.touched < lim) := by
  unfold spec_delete_cond
  cases hm : get_month_from_backup_file f with
  | error e => simp
  | ok month =>
    cases hf : L0.find? (fun x => x.encrypted == f) with
    | none => simp
    | some e =>
      show ((monthsOf prior).contains month && decide (e.touched < lim)) = true ↔ _
      rw [contains_eq_decide_mem]
      constructor
      · intro h
        simp only [Bool.and_eq_true, decide_eq_true_eq] at h
        exact ⟨⟨month, rfl, h.1⟩, ⟨e, rfl, h.2⟩⟩
      · rintro ⟨⟨month2, hm2, hmem⟩, ⟨e2, he2, htouch⟩⟩
        obtain rfl : month2 = month := (Except.ok.injEq _ _).mp hm2.symm
        obtain rfl : e2 = e := (Option.some.injEq _ _).mp he2.symm
        simp [hmem, htouch]

theorem spec_deleted_cons (L0 : List Entry) (lim : Rat) (prior : List String)
    (f : String) (fs : List String) :
    spec_deleted L0 lim prior (f :: fs) =
      (if spec_delete_cond L0 lim prior f then [f] else []) ++
        spec_deleted L0 lim (prior ++ [f]) fs := rfl

theorem pruneWalk_spec (L0 : List Entry) (lim : Rat)
    (hchk : (L0.map (fun e => e.open_checksum)).Nodup)
    (henc : (L0.map (fun e => e.encrypted)).Nodup) :
    ∀ (fs prior ms ds : List String),
      (∀ m, ms.contains m = true ↔ m ∈ monthsOf prior) →
      (∀ d ∈ ds, d ∈ prior) →
      (prior ++ fs).Nodup →
      (∀ f ∈ fs, isOkE (get_month_from_backup_file f) = true) →
      ∃ st2,
        pruneWalk lim
          (PruneState.mk ms (L0.filter (fun e => !ds.contains e.encrypted)) ds) fs =
            Except.ok st2 ∧
        st2.deleted = ds ++ spec_deleted L0 lim prior fs ∧
        st2.ledger = L0.filter (fun e => !st2.deleted.contains e.encrypted) ∧
        (∀ m, st2.months.contains m = true ↔ m ∈ monthsOf (prior ++ fs)) := by
  intro fs
  induction fs with
  | nil =>
    intro prior ms ds hms hds hnd hparse
    refine ⟨PruneState.mk ms (L0.filter (fun e => !ds.contains e.encrypted)) ds,
      rfl, by simp [spec_deleted], rfl, by simpa using hms⟩
  | cons f fs ih =>
    intro prior ms ds hms hds hnd hparse
    obtain ⟨month, hmonth⟩ := isOkE_exists (hparse f (by simp))
    have hndparts := List.nodup_append.mp hnd
    have hfprior : f ∉ prior := fun hf => hndparts.2.2 hf (by simp)
    have hfds : f ∉ ds := fun hd => hfprior (hds f hd)
    have hfind := find_enc_filter L0 ds f hfds
    have hnd2 : ((prior ++ [f]) ++ fs).Nodup := by
      rw [List.append_assoc, List.singleton_append]
      exact hnd
    have hparse2 : ∀ g ∈ fs, isOkE (get_month_from_backup_file g) = true :=
      fun g hg => hparse g (by simp [hg])
    have hdsmem : ∀ d ∈ ds, d ∈ prior ++ [f] :=
      fun d hd => List.mem_append_left _ (hds d hd)
    by_cases hmm : ms.contains month = true
    · -- the month is already recorded
      have hmprior : month ∈ monthsOf prior := (hms month).mp hmm
      have hms2 : ∀ m, ms.contains m = true ↔ m ∈ monthsOf (prior ++ [f]) := by
        intro m
        rw [monthsOf_append, monthsOf_cons_ok hmonth]
        rw [hms m]
        constructor
        · intro h
          exact List.mem_append_left _ h
        · intro h
          rcases List.mem_append.mp h with h | h
          · exact h
          · rcases List.mem_cons.mp h with h | h
            · rw [h]; exact hmprior
            · exact absurd h (by simp [monthsOf])
      cases hmeta : Metadata.get_from_encrypted_name
          (L0.filter (fun e => !ds.contains e.encrypted)) f with
      | none =>
        have hfindL0 : L0.find? (fun e => e.encrypted == f) = none := by
          rw [← hfind]
          exact hmeta
        have hcondF : spec_delete_cond L0 lim prior f = false := by
          apply Bool.eq_false_iff.mpr
          intro h
          obtain ⟨-, e2, he2, -⟩ := (spec_delete_cond_iff L0 lim prior f).mp h
          rw [hfindL0] at he2
          cases he2
        have hstep := @pruneStep_nometa lim
          (PruneState.mk ms (L0.filter (fun e => !ds.contains e.encrypted)) ds)
          f month hmonth hmm hmeta
        obtain ⟨st2, hwalk, hdel, hled, hmon⟩ := ih (prior ++ [f]) ms ds hms2 hdsmem hnd2 hparse2
        refine ⟨st2, ?_, ?_, hled, ?_⟩
        · simp only [pruneWalk, hstep]
          exact hwalk
        · rw [hdel, spec_deleted_cons, hcondF]
          simp
        · intro m
          rw [hmon m, List.append_assoc, List.singleton_append]
      | some m =>
        have hfindL0 : L0.find? (fun e => e.encrypted == f) = some m := by
          rw [← hfind]
          exact hmeta
        by_cases hold : m.touched < lim
        · -- delete the file and its entry
          have hcondT : spec_delete_cond L0 lim prior f = true :=
            (spec_delete_cond_iff L0 lim prior f).mpr
              ⟨⟨month, hmonth, hmprior⟩, ⟨m, hfindL0, hold⟩⟩
          have hstep := @pruneStep_old lim
            (PruneState.mk ms (L0.filter (fun e => !ds.contains e.encrypted)) ds)
            f month m hmonth hmm hmeta hold
          have hrm := remove_filter L0 ds f m hchk henc hfds hfindL0
          obtain ⟨st2, hwalk, hdel, hled, hmon⟩ :=
            ih (prior ++ [f]) ms (ds ++ [f]) hms2
              (fun d hd => by
                rcases List.mem_append.mp hd with h | h
                · exact List.mem_append_left _ (hds d h)
                · exact List.mem_append_right _ h)
              hnd2 hparse2
          refine ⟨st2, ?_, ?_, hled, ?_⟩
          · simp only [pruneWalk, hstep]
            rw [show Metadata.remove (L0.filter (fun e => !ds.contains e.encrypted))
              m.open_checksum = L0.filter (fun e => !(ds ++ [f]).contains e.encrypted)
              from hrm]
            exact hwalk
          · rw [hdel, spec_deleted_cons, hcondT]
            simp
          · intro m2
            rw [hmon m2, List.append_assoc, List.singleton_append]
        · -- entry too young, keep the file
          have hcondF : spec_delete_cond L0 lim prior f = false := by
            apply Bool.eq_false_iff.mpr
            intro h
            obtain ⟨-, e2, he2, hlt⟩ := (spec_delete_cond_iff L0 lim prior f).mp h
            rw [hfindL0] at he2
            obtain rfl : e2 = m := (Option.some.injEq _ _).mp he2.symm
            exact hold hlt
          have hstep := @pruneStep_young lim
            (PruneState.mk ms (L0.filter (fun e => !ds.contains e.encrypted)) ds)
            f month m hmonth hmm hmeta hold
          obtain ⟨st2, hwalk, hdel, hled, hmon⟩ := ih (prior ++ [f]) ms ds hms2 hdsmem hnd2 hparse2
          refine ⟨st2, ?_, ?_, hled, ?_⟩
          · simp only [pruneWalk, hstep]
            exact hwalk
          · rw [hdel, spec_deleted_cons, hcondF]
            simp
          · intro m2
            rw [hmon m2, List.append_assoc, List.singleton_append]
    · -- the file becomes the representative of a new month
      have hmB : ms.contains month = false := by simpa using hmm
      have hmnot : month ∉ monthsOf prior :=
        fun hmem => hmm ((hms month).mpr hmem)
      have hcondF : spec_delete_cond L0 lim prior f = false := by
        apply Bool.eq_false_iff.mpr
        intro h
        obtain ⟨⟨m2, hm2, hmem⟩, -⟩ := (spec_delete_cond_iff L0 lim prior f).mp h
        rw [hmonth] at hm2
        obtain rfl : m2 = month := (Except.ok.injEq _ _).mp hm2.symm
        exact hmnot hmem
      have hstep := @pruneStep_newmonth lim
        (PruneState.mk ms (L0.filter (fun e => !ds.contains e.encrypted)) ds)
        f month hmonth hmB
      have hms2 : ∀ m, (ms ++ [month]).contains m = true ↔ m ∈ monthsOf (prior ++ [f]) := by
        intro m
        rw [monthsOf_append, monthsOf_cons_ok hmonth]
        rw [contains_eq_decide_mem]
        simp only [decide_eq_true_eq, List.mem_append, List.mem_singleton]
        constructor
        · intro h
          rcases h with h | h
          · exact Or.inl ((hms m).mp (by rw [contains_eq_decide_mem]; simpa using h))
          · exact Or.inr (by simp [h])
        · intro h
          rcases h with h | h
          · left
            have := (hms m).mpr h
            rw [contains_eq_decide_mem] at this
            simpa using this
          · rcases List.mem_cons.mp h with h | h
            · exact Or.inr h
            · exact absurd h (by simp [monthsOf])
      obtain ⟨st2, hwalk, hdel, hled, hmon⟩ :=
        ih (prior ++ [f]) (ms ++ [month]) ds hms2 hdsmem hnd2 hparse2
      refine ⟨st2, ?_, ?_, hled, ?_⟩
      · simp only [pruneWalk, hstep]
        exact hwalk
      · rw [hdel, spec_deleted_cons, hcondF]
        simp
      · intro m2
        rw [hmon m2, List.append_assoc, List.singleton_append]

theorem cleanup_run (pfx : String) (pol : PrunePolicy) (now : Rat) (w : World)
    (hparse : ∀ f ∈ pruneCandidates pfx w.disk,
      isOkE (get_month_from_backup_file f) = true)
    (hndbs : (pruneCandidates pfx w.disk).Nodup)
    (hchk : (w.ledger.map (fun e => e.open_checksum)).Nodup)
    (henc : (w.ledger.map (fun e => e.encrypted)).Nodup) :
    ∃ w2 info, cleanup_backups pfx pol now w = Except.ok (w2, info) ∧
      info.deleted = spec_deleted w.ledger (now - (pol.keep_days : Rat) * 86400) []
        ((pruneCandidates pfx w.disk).drop pol.keep_archives) ∧
      info.writes = 1 ∧
      (∀ m, info.months.contains m = true ↔
        m ∈ monthsOf ((pruneCandidates pfx w.disk).drop pol.keep_archives)) ∧
      w2.disk = w.disk.filter (fun f => !info.deleted.contains f) ∧
      (∀ e, e ∈ w2.ledger ↔ e ∈ w.ledger ∧ e.encrypted ∉ info.deleted) := by
  have hfilter : w.ledger.filter
      (fun e => !([] : List String).contains e.encrypted) = w.ledger := by
    have : (fun (e : Entry) => !([] : List String).contains e.encrypted) =
        fun _ => true := by
      funext e
      rfl
    rw [this, List.filter_true]
  have hndcs : (([] : List String) ++
      (pruneCandidates pfx w.disk).drop pol.keep_archives).Nodup := by
    rw [List.nil_append]
    exact (List.drop_sublist _ _).nodup hndbs
  obtain ⟨st2, hwalk, hdel, hled, hmon⟩ :=
    pruneWalk_spec w.ledger (now - (pol.keep_days : Rat) * 86400) hchk henc
      ((pruneCandidates pfx w.disk).drop pol.keep_archives) [] [] []
      (by
        intro m
        constructor
        · intro h
          cases h
        · intro h
          exact absurd h (by simp [monthsOf]))
      (by intro d hd; exact absurd hd (by simp))
      hndcs
      (fun f hf => hparse f (List.mem_of_mem_drop hf))
  rw [hfilter] at hwalk
  refine ⟨World.mk (w.disk.filter (fun f => !st2.deleted.contains f)) (writeSort st2.ledger),
    CleanupInfo.mk st2.deleted st2.months 1, ?_, ?_, rfl, hmon, rfl, ?_⟩
  · simp only [cleanup_backups, hwalk]
  · rw [hdel, List.nil_append]
  · intro e
    have hperm := List.perm_insertionSort touchedLE st2.ledger
    show e ∈ writeSort st2.ledger ↔ e ∈ w.ledger ∧ e.encrypted ∉ st2.deleted
    unfold writeSort
    rw [hperm.mem_iff, hled, List.mem_filter]
    constructor
    · rintro ⟨hmem, hpred⟩
      refine ⟨hmem, ?_⟩
      intro hin
      rw [contains_eq_decide_mem] at hpred
      simp [hin] at hpred
    · rintro ⟨hmem, hnin⟩
      refine ⟨hmem, ?_⟩
      rw [contains_eq_decide_mem]
      simpa using hnin

theorem spec_deleted_subset (L0 : List Entry) (lim : Rat) :
    ∀ (fs prior : List String), spec_deleted L0 lim prior fs ⊆ fs := by
  intro fs
  induction fs with
  | nil => intro prior x hx; exact absurd hx (by simp [spec_deleted])
  | cons f fs ih =>
    intro prior x hx
    rw [spec_deleted_cons] at hx
    rcases List.mem_append.mp hx with h | h
    · by_cases hc : spec_delete_cond L0 lim prior f = true
      · rw [if_pos hc] at h
        simp only [List.mem_singleton] at h
        simp [h]
      · rw [if_neg hc] at h
        exact absurd h (by simp)
    · exact List.mem_cons_of_mem f (ih (prior ++ [f]) h)

theorem spec_deleted_get_iff (L0 : List Entry) (lim : Rat) :
    ∀ (fs prior : List String), (prior ++ fs).Nodup →
      ∀ (k : Nat) (hk : k < fs.length),
        (fs.get ⟨k, hk⟩ ∈ spec_deleted L0 lim prior fs ↔
          spec_delete_cond L0 lim (prior ++ fs.take k) (fs.get ⟨k, hk⟩) = true) := by
  intro fs
  induction fs with
  | nil => intro prior hnd k hk; exact absurd hk (by simp)
  | cons f fs ih =>
    intro prior hnd k hk
    have hndparts := List.nodup_append.mp hnd
    have hffs : f ∉ fs := by
      have := hndparts.2.1
      rw [List.nodup_cons] at this
      exact this.1
    have hnd2 : ((prior ++ [f]) ++ fs).Nodup := by
      rw [List.append_assoc, List.singleton_append]
      exact hnd
    cases k with
    | zero =>
      rw [spec_deleted_cons]
      show f ∈ _ ↔ _
      rw [List.mem_append]
      constructor
      · intro h
        rcases h with h | h
        · by_cases hc : spec_delete_cond L0 lim prior f = true
          · simpa using hc
          · rw [if_neg hc] at h
            exact absurd h (by simp)
        · exact absurd (spec_deleted_subset L0 lim fs (prior ++ [f]) h) hffs
      · intro h
        left
        rw [if_pos (by simpa using h)]
        simp
    | succ k =>
      have hk2 : k < fs.length := by simpa using hk
      rw [spec_deleted_cons]
      show fs.get ⟨k, hk2⟩ ∈ _ ↔ _
      rw [List.mem_append]
      have hget_mem : fs.get ⟨k, hk2⟩ ∈ fs := List.get_mem fs k hk2
      have hne : fs.get ⟨k, hk2⟩ ≠ f := fun h => hffs (h ▸ hget_mem)
      constructor
      · intro h
        rcases h with h | h
        · exfalso
          by_cases hc : spec_delete_cond L0 lim prior f = true
          · rw [if_pos hc] at h
            simp only [List.mem_singleton] at h
            exact hne h
          · rw [if_neg hc] at h
            exact absurd h (by simp)
        · have := (ih (prior ++ [f]) hnd2 k hk2).mp h
          rw [List.append_assoc, List.singleton_append] at this
          exact this
      · intro h
        right
        apply (ih (prior ++ [f]) hnd2 k hk2).mpr
        rw [List.append_assoc, List.singleton_append]
        exact h

theorem mem_take_iff_get (l : List String) (k : Nat) (g : String) :
    g ∈ l.take k ↔ ∃ j, ∃ hj : j < l.length, j < k ∧ l.get ⟨j, hj⟩ = g := by
  constructor
  · intro h
    obtain ⟨⟨j, hjlen⟩, hget⟩ := List.mem_iff_get.mp h
    have hlen := hjlen
    rw [List.length_take] at hlen
    refine ⟨j, by omega, by omega, ?_⟩
    rw [← hget]
    simp [List.get_eq_getElem]
  · rintro ⟨j, hj, hjk, hget⟩
    apply List.mem_iff_get.mpr
    refine ⟨⟨j, by rw [List.length_take]; omega⟩, ?_⟩
    rw [← hget]
    simp [List.get_eq_getElem]

theorem get_drop_add (l : List String) (n k : Nat) (hk : k < (l.drop n).length) :
    (l.drop n).get ⟨k, hk⟩ =
      l.get ⟨n + k, by rw [List.length_drop] at hk; omega⟩ := by
  simp [List.get_eq_getElem]

theorem toOption_get_month {g m : String} :
    (get_month_from_backup_file g).toOption = some m ↔
      get_month_from_backup_file g = Except.ok m := by
  cases h : get_month_from_backup_file g <;> simp [Except.toOption]

/-- Full characterization of one pruning run over a well-formed backup
directory: success, one persist, and the deletion rule per candidate
index. -/
theorem cleanup_characterization
    (pfx : String) (pol : PrunePolicy) (now : Rat) (w : World)
    (hparse : ∀ f ∈ pruneCandidates pfx w.disk,
      isOkE (get_month_from_backup_file f) = true)
    (hndbs : (pruneCandidates pfx w.disk).Nodup)
    (hchk : (w.ledger.map (fun e => e.open_checksum)).Nodup)
    (henc : (w.ledger.map (fun e => e.encrypted)).Nodup) :
    ∃ w2 info, cleanup_backups pfx pol now w = Except.ok (w2, info) ∧
      info.writes = 1 ∧
      (∀ f ∈ info.deleted, f ∈ pruneCandidates pfx w.disk) ∧
      (∀ i, ∀ hi : i < (pruneCandidates pfx w.disk).length,
        ((pruneCandidates pfx w.disk).get ⟨i, hi⟩ ∈ info.deleted ↔
          pol.keep_archives ≤ i ∧
          (∃ j, ∃ hj : j < (pruneCandidates pfx w.disk).length,
            pol.keep_archives ≤ j ∧ j < i ∧
            ∃ m, get_month_from_backup_file
                ((pruneCandidates pfx w.disk).get ⟨j, hj⟩) = Except.ok m ∧
              get_month_from_backup_file
                ((pruneCandidates pfx w.disk).get ⟨i, hi⟩) = Except.ok m) ∧
          (∃ e, Metadata.get_from_encrypted_name w.ledger
              ((pruneCandidates pfx w.disk).get ⟨i, hi⟩) = some e ∧
            e.touched < now - (pol.keep_days : Rat) * 86400))) ∧
      (∀ f, f ∈ w2.disk ↔ f ∈ w.disk ∧ f ∉ info.deleted) ∧
      (∀ e, e ∈ w2.ledger ↔ e ∈ w.ledger ∧ e.encrypted ∉ info.deleted) := by
  obtain ⟨w2, info, hrun, hdel, hwrites, hmon, hdisk, hled⟩ :=
    cleanup_run pfx pol now w hparse hndbs hchk henc
  have hndcs : (([] : List String) ++
      (pruneCandidates pfx w.disk).drop pol.keep_archives).Nodup := by
    rw [List.nil_append]
    exact (List.drop_sublist _ _).nodup hndbs
  refine ⟨w2, info, hrun, hwrites, ?_, ?_, ?_, hled⟩
  · intro f hf
    rw [hdel] at hf
    exact List.drop_subset _ _ (spec_deleted_subset _ _ _ _ hf)
  · intro i hi
    constructor
    · intro hmem
      rw [hdel] at hmem
      have hmemcs := spec_deleted_subset _ _ _ _ hmem
      obtain ⟨⟨k, hk⟩, hgetk⟩ := List.mem_iff_get.mp hmemcs
      have hkbs : pol.keep_archives + k < (pruneCandidates pfx w.disk).length := by
        have := hk
        rw [List.length_drop] at this
        omega
      have hbsk : ((pruneCandidates pfx w.disk).drop pol.keep_archives).get ⟨k, hk⟩ =
          (pruneCandidates pfx w.disk).get ⟨pol.keep_archives + k, hkbs⟩ :=
        get_drop_add _ _ _ _
      have heq : (pruneCandidates pfx w.disk).get ⟨i, hi⟩ =
          (pruneCandidates pfx w.disk).get ⟨pol.keep_archives + k, hkbs⟩ := by
        rw [← hbsk, hgetk]
      have hik : i = pol.keep_archives + k :=
        congrArg Fin.val ((hndbs.get_inj_iff).mp heq)
      have hcond := (spec_deleted_get_iff w.ledger
          (now - (pol.keep_days : Rat) * 86400)
          ((pruneCandidates pfx w.disk).drop pol.keep_archives) [] hndcs k hk).mp
        (by rw [hgetk]; exact hmem)
      rw [List.nil_append] at hcond
      obtain ⟨⟨month, hokm, hmemM⟩, ⟨e, hfinde, hlt⟩⟩ :=
        (spec_delete_cond_iff _ _ _ _).mp hcond
      have hicsk : (pruneCandidates pfx w.disk).get ⟨i, hi⟩ =
          ((pruneCandidates pfx w.disk).drop pol.keep_archives).get ⟨k, hk⟩ := by
        rw [heq]
        exact hbsk.symm
      refine ⟨by omega, ?_, ?_⟩
      · obtain ⟨g, hgmem, hgsome⟩ := List.mem_filterMap.mp hmemM
        obtain ⟨j2, hj2, hj2k, hgetj2⟩ := (mem_take_iff_get _ _ _).mp hgmem
        have hj2bs : pol.keep_archives + j2 < (pruneCandidates pfx w.disk).length := by
          rw [List.length_drop] at hj2
          omega
        refine ⟨pol.keep_archives + j2, hj2bs, by omega, by omega, month, ?_, ?_⟩
        · rw [← get_drop_add _ _ _ hj2, hgetj2]
          exact toOption_get_month.mp hgsome
        · rw [hicsk]
          exact hokm
      · refine ⟨e, ?_, hlt⟩
        rw [hicsk]
        exact hfinde
    · rintro ⟨hka, ⟨j, hj, hkaj, hji, m, hgj, hgi⟩, ⟨e, hfind, hlt⟩⟩
      rw [hdel]
      have hk : i - pol.keep_archives <
          ((pruneCandidates pfx w.disk).drop pol.keep_archives).length := by
        rw [List.length_drop]
        omega
      have hisplit : (pruneCandidates pfx w.disk).get ⟨i, hi⟩ =
          ((pruneCandidates pfx w.disk).drop pol.keep_archives).get
            ⟨i - pol.keep_archives, hk⟩ := by
        rw [get_drop_add]
        congr 1
        exact Fin.ext
          (show i = pol.keep_archives + (i - pol.keep_archives) by omega)
      rw [hisplit]
      apply (spec_deleted_get_iff w.ledger (now - (pol.keep_days : Rat) * 86400)
        ((pruneCandidates pfx w.disk).drop pol.keep_archives) [] hndcs
        (i - pol.keep_archives) hk).mpr
      rw [List.nil_append]
      apply (spec_delete_cond_iff _ _ _ _).mpr
      refine ⟨⟨m, ?_, ?_⟩, ⟨e, ?_, hlt⟩⟩
      · rw [← hisplit]
        exact hgi
      · apply List.mem_filterMap.mpr
        have hjk : j - pol.keep_archives <
            ((pruneCandidates pfx w.disk).drop pol.keep_archives).length := by
          rw [List.length_drop]
          omega
        refine ⟨((pruneCandidates pfx w.disk).drop pol.keep_archives).get
          ⟨j - pol.keep_archives, hjk⟩, ?_, ?_⟩
        · apply (mem_take_iff_get _ _ _).mpr
          exact ⟨j - pol.keep_archives, hjk, by omega, rfl⟩
        · apply toOption_get_month.mpr
          have : ((pruneCandidates pfx w.disk).drop pol.keep_archives).get
              ⟨j - pol.keep_archives, hjk⟩ =
              (pruneCandidates pfx w.disk).get ⟨j, hj⟩ := by
            rw [get_drop_add]
            congr 1
            exact Fin.ext
              (show pol.keep_archives + (j - pol.keep_archives) = j by omega)
          rw [this]
          exact hgj
      · rw [← hisplit]
        exact hfind
  · intro f
    rw [hdisk, List.mem_filter]
    constructor
    · rintro ⟨hmem, hpred⟩
      refine ⟨hmem, ?_⟩
      intro hin
      rw [contains_eq_decide_mem] at hpred
      simp [hin] at hpred
    · rintro ⟨hmem, hnin⟩
      refine ⟨hmem, ?_⟩
      rw [contains_eq_decide_mem]
      simpa using hnin

/-- C1: in a pruning run over an existing backup directory, with the
matching encrypted files sorted by filename descending (pruneCandidates)
and a well-formed ledger, a file is deleted from disk (and its ledger
entry removed) if and only if it lies beyond the first keep_archives
files, its UTC month bucket equals that of an earlier-walked kept
candidate, a ledger entry for its encrypted filename exists, and that
entry was touched strictly before now - keep_days * 86400; every other
file is left untouched, and the ledger is persisted exactly once at the
end of the run. -/
theorem c1_cleanup_delete_iff
    (pfx : String) (pol : PrunePolicy) (now : Rat) (w : World)
    (hparse : ∀ f ∈ pruneCandidates pfx w.disk,
      isOkE (get_month_from_backup_file f) = true)
    (hndbs : (pruneCandidates pfx w.disk).Nodup)
    (hchk : (w.ledger.map (fun e => e.open_checksum)).Nodup)
    (henc : (w.ledger.map (fun e => e.encrypted)).Nodup) :
    ∃ w2 info, cleanup_backups pfx pol now w = Except.ok (w2, info) ∧
      info.writes = 1 ∧
      (∀ f ∈ info.deleted, f ∈ pruneCandidates pfx w.disk) ∧
      (∀ i, ∀ hi : i < (pruneCandidates pfx w.disk).length,
        ((pruneCandidates pfx w.disk).get ⟨i, hi⟩ ∈ info.deleted ↔
          pol.keep_archives ≤ i ∧
          (∃ j, ∃ hj : j < (pruneCandidates pfx w.disk).length,
            pol.keep_archives ≤ j ∧ j < i ∧
            ∃ m, get_month_from_backup_file
                ((pruneCandidates pfx w.disk).get ⟨j, hj⟩) = Except.ok m ∧
              get_month_from_backup_file
                ((pruneCandidates pfx w.disk).get ⟨i, hi⟩) = Except.ok m) ∧
          (∃ e, Metadata.get_from_encrypted_name w.ledger
              ((pruneCandidates pfx w.disk).get ⟨i, hi⟩) = some e ∧
            e.touched < now - (pol.keep_days : Rat) * 86400))) ∧
      (∀ f, f ∈ w2.disk ↔ f ∈ w.disk ∧ f ∉ info.deleted) ∧
      (∀ e, e ∈ w2.ledger ↔ e ∈ w.ledger ∧ e.encrypted ∉ info.deleted) :=
  cleanup_characterization pfx pol now w hparse hndbs hchk henc

/-- Encrypted archives of a demonstration backup directory: three
archives of February 2021, with the two oldest candidates beyond a
keep_archives = 1 head window. -/
def demoF1 : String := "test_1612900000_20210209T212640.tar.gz.gpg"

/-- Second-newest demonstration archive. -/
def demoF2 : String := "test_1612800000_20210208T000000.tar.gz.gpg"

/-- Oldest demonstration archive. -/
def demoF3 : String := "test_1612700000_20210207T000000.tar.gz.gpg"

/-- Ledger entry of the second demonstration archive, last touched at
its creation epoch. -/
def demoE2 : Entry :=
  Entry.mk "test_1612800000_20210208T000000.tar.gz" demoF2 "c2" 1612800000 1612800000

/-- Ledger entry of the oldest demonstration archive. -/
def demoE3 : Entry :=
  Entry.mk "test_1612700000_20210207T000000.tar.gz" demoF3 "c3" 1612700000 1612700000

/-- Demonstration backup directory state. -/
def demoWorld : World := World.mk [demoF3, demoF1, demoF2] [demoE2, demoE3]

/-- Demonstration retention policy: keep one archive, thirty days. -/
def demoPol : PrunePolicy := PrunePolicy.mk 1 30

/-- Archive name prefix of the demonstration directory. -/
def demoPfx : String := "test"

/-- Month bucket shared by the demonstration archives. -/
def demoMonth : String := "2021-2"

/-- C1 (witness): on the demonstration directory the oldest archive,
whose month is already represented and whose ledger entry is older than
the age limit, is deleted by the pruning run. -/
theorem c1_witness :
    ∃ w2 info, cleanup_backups demoPfx demoPol 1700000000 demoWorld =
        Except.ok (w2, info) ∧ demoF3 ∈ info.deleted := by
  obtain ⟨w2, info, hrun, hwrites, hsub, hiff, hdisk, hled⟩ :=
    c1_cleanup_delete_iff demoPfx demoPol 1700000000 demoWorld
      (by decide) (by decide) (by decide) (by decide)
  refine ⟨w2, info, hrun, ?_⟩
  have h2 : (pruneCandidates demoPfx demoWorld.disk).get ⟨2, by decide⟩ = demoF3 := by
    decide
  rw [← h2]
  apply (hiff 2 (by decide)).mpr
  refine ⟨by decide, ⟨1, by decide, by decide, by decide, demoMonth, by decide, by decide⟩,
    ⟨demoE3, by decide, ?_⟩⟩
  show demoE3.touched < 1700000000 - ((demoPol.keep_days : Nat) : Rat) * 86400
  with_unfolding_all exact of_decide_eq_true rfl

/-- C2: after a pruning run, every calendar month that had at least one
matching archive before pruning still has at least one archive on disk
afterwards (proved here without any condition on ledger entries: the
first-walked candidate of each month is always kept, and head-window
files are never deleted); in particular a candidate beyond the head
window with no earlier same-month candidate is retained regardless of
its age or ledger state. -/
theorem c2_month_retention
    (pfx : String) (pol : PrunePolicy) (now : Rat) (w : World)
    (hparse : ∀ f ∈ pruneCandidates pfx w.disk,
      isOkE (get_month_from_backup_file f) = true)
    (hndbs : (pruneCandidates pfx w.disk).Nodup)
    (hchk : (w.ledger.map (fun e => e.open_checksum)).Nodup)
    (henc : (w.ledger.map (fun e => e.encrypted)).Nodup) :
    ∃ w2 info, cleanup_backups pfx pol now w = Except.ok (w2, info) ∧
      (∀ m f, f ∈ pruneCandidates pfx w.disk →
        get_month_from_backup_file f = Except.ok m →
        ∃ g, g ∈ w2.disk ∧ get_month_from_backup_file g = Except.ok m) ∧
      (∀ i, ∀ hi : i < (pruneCandidates pfx w.disk).length,
        pol.keep_archives ≤ i →
        (∀ j, ∀ hj : j < (pruneCandidates pfx w.disk).length,
          pol.keep_archives ≤ j → j < i →
          get_month_from_backup_file ((pruneCandidates pfx w.disk).get ⟨j, hj⟩) ≠
            get_month_from_backup_file ((pruneCandidates pfx w.disk).get ⟨i, hi⟩)) →
        (pruneCandidates pfx w.disk).get ⟨i, hi⟩ ∉ info.deleted) := by
  obtain ⟨w2, info, hrun, hwrites, hsub, hiff, hdiskm, hledm⟩ :=
    cleanup_characterization pfx pol now w hparse hndbs hchk henc
  have hbs_disk : ∀ g, g ∈ pruneCandidates pfx w.disk → g ∈ w.disk := by
    intro g hg
    unfold pruneCandidates at hg
    exact List.mem_of_mem_filter ((List.perm_insertionSort strGE _).mem_iff.mp hg)
  have aux : ∀ i, ∀ hi : i < (pruneCandidates pfx w.disk).length, ∀ m,
      get_month_from_backup_file ((pruneCandidates pfx w.disk).get ⟨i, hi⟩) =
        Except.ok m →
      ∃ i2, ∃ hi2 : i2 < (pruneCandidates pfx w.disk).length,
        get_month_from_backup_file ((pruneCandidates pfx w.disk).get ⟨i2, hi2⟩) =
          Except.ok m ∧
        (pruneCandidates pfx w.disk).get ⟨i2, hi2⟩ ∉ info.deleted := by
    intro i
    induction i using Nat.strong_induction_on with
    | _ i ih =>
      intro hi m hm
      by_cases hdel : (pruneCandidates pfx w.disk).get ⟨i, hi⟩ ∈ info.deleted
      · obtain ⟨hka, ⟨j, hj, hkaj, hji, m2, hgj, hgi⟩, -⟩ := (hiff i hi).mp hdel
        have hm2 : m2 = m := by
          rw [hm] at hgi
          exact ((Except.ok.injEq _ _).mp hgi).symm
        exact ih j hji hj m (hm2 ▸ hgj)
      · exact ⟨i, hi, hm, hdel⟩
  refine ⟨w2, info, hrun, ?_, ?_⟩
  · intro m f hf hm
    obtain ⟨⟨i, hi⟩, hgi⟩ := List.mem_iff_get.mp hf
    obtain ⟨i2, hi2, hm2, hkept⟩ := aux i hi m (by rw [hgi]; exact hm)
    refine ⟨(pruneCandidates pfx w.disk).get ⟨i2, hi2⟩, ?_, hm2⟩
    exact (hdiskm _).mpr ⟨hbs_disk _ (List.get_mem _ _ _), hkept⟩
  · intro i hi hka hnone hdel
    obtain ⟨-, ⟨j, hj, hkaj, hji, m2, hgj, hgi⟩, -⟩ := (hiff i hi).mp hdel
    exact hnone j hj hkaj hji (by rw [hgj, hgi])

/-- C2 (witness): on the demonstration directory the month 2021-2,
present before pruning, is still represented on disk afterwards. -/
theorem c2_witness :
    ∃ w2 info, cleanup_backups demoPfx demoPol 1700000000 demoWorld =
        Except.ok (w2, info) ∧
      ∃ g, g ∈ w2.disk ∧ get_month_from_backup_file g = Except.ok demoMonth := by
  obtain ⟨w2, info, hrun, hpres, hfirst⟩ :=
    c2_month_retention demoPfx demoPol 1700000000 demoWorld
      (by decide) (by decide) (by decide) (by decide)
  exact ⟨w2, info, hrun, hpres demoMonth demoF1 (by decide) (by decide)⟩

/-- C10: the month-representative tracking of cleanup_backups is built
only over the candidates beyond the keep_archives head window (a month
is recorded exactly when some candidate beyond the head window carries
it, so head-window files never contribute a key), the first candidate
beyond the head window is always retained, and, concretely, a calendar
month may retain two archives, one inside the head window and one as the
month representative, even though the representative has a ledger entry
older than keep_days. -/
theorem c10_head_window_tracking :
    (∀ (pfx : String) (pol : PrunePolicy) (now : Rat) (w : World),
      (∀ f ∈ pruneCandidates pfx w.disk,
        isOkE (get_month_from_backup_file f) = true) →
      (pruneCandidates pfx w.disk).Nodup →
      (w.ledger.map (fun e => e.open_checksum)).Nodup →
      (w.ledger.map (fun e => e.encrypted)).Nodup →
      ∃ w2 info, cleanup_backups pfx pol now w = Except.ok (w2, info) ∧
        (∀ m, info.months.contains m = true ↔
          ∃ f ∈ (pruneCandidates pfx w.disk).drop pol.keep_archives,
            get_month_from_backup_file f = Except.ok m) ∧
        (∀ hi : pol.keep_archives < (pruneCandidates pfx w.disk).length,
          (pruneCandidates pfx w.disk).get ⟨pol.keep_archives, hi⟩ ∉ info.deleted)) ∧
    (∃ w2 info, cleanup_backups demoPfx demoPol 1700000000 demoWorld =
        Except.ok (w2, info) ∧
      demoF1 ∈ w2.disk ∧ demoF2 ∈ w2.disk ∧
      get_month_from_backup_file demoF1 = Except.ok demoMonth ∧
      get_month_from_backup_file demoF2 = Except.ok demoMonth ∧
      ∃ e, e ∈ demoWorld.ledger ∧ e.encrypted = demoF2 ∧
        e.touched < 1700000000 - ((demoPol.keep_days : Nat) : Rat) * 86400) := by
  constructor
  · intro pfx pol now w hparse hndbs hchk henc
    obtain ⟨w2, info, hrun, hdel, hwr, hmon, hdisk, hled⟩ :=
      cleanup_run pfx pol now w hparse hndbs hchk henc
    refine ⟨w2, info, hrun, ?_, ?_⟩
    · intro m
      rw [hmon m]
      unfold monthsOf
      rw [List.mem_filterMap]
      constructor
      · rintro ⟨f, hf, hsome⟩
        exact ⟨f, hf, toOption_get_month.mp hsome⟩
      · rintro ⟨f, hf, hok⟩
        exact ⟨f, hf, toOption_get_month.mpr hok⟩
    · intro hi hmem
      obtain ⟨w2b, infob, hrunb, hwrb, hsubb, hiffb, hdiskb, hledb⟩ :=
        cleanup_characterization pfx pol now w hparse hndbs hchk henc
      obtain ⟨rfl, rfl⟩ : w2b = w2 ∧ infob = info := by
        have := hrunb.symm.trans hrun
        simp only [Except.ok.injEq, Prod.mk.injEq] at this
        exact this
      obtain ⟨-, ⟨j, hj, hkaj, hjlt, -⟩, -⟩ :=
        (hiffb pol.keep_archives hi).mp hmem
      omega
  · obtain ⟨w2, info, hrun, hwrites, hsub, hiff, hdisk, hled⟩ :=
      cleanup_characterization demoPfx demoPol 1700000000 demoWorld
        (by decide) (by decide) (by decide) (by decide)
    have hnd1 : demoF1 ∉ info.deleted := by
      intro h
      have h0 : (pruneCandidates demoPfx demoWorld.disk).get ⟨0, by decide⟩ =
          demoF1 := by decide
      rw [← h0] at h
      obtain ⟨hka, -, -⟩ := (hiff 0 (by decide)).mp h
      exact absurd hka (by decide)
    have hnd2 : demoF2 ∉ info.deleted := by
      intro h
      have h1 : (pruneCandidates demoPfx demoWorld.disk).get ⟨1, by decide⟩ =
          demoF2 := by decide
      rw [← h1] at h
      obtain ⟨-, ⟨j, hj, hkaj, hjlt, -⟩, -⟩ := (hiff 1 (by decide)).mp h
      have hka1 : demoPol.keep_archives = 1 := rfl
      rw [hka1] at hkaj
      omega
    refine ⟨w2, info, hrun, (hdisk demoF1).mpr ⟨by decide, hnd1⟩,
      (hdisk demoF2).mpr ⟨by decide, hnd2⟩, by decide, by decide,
      demoE2, by decide, rfl, ?_⟩
    show demoE2.touched < 1700000000 - ((demoPol.keep_days : Nat) : Rat) * 86400
    with_unfolding_all exact of_decide_eq_true rfl

/-- C10 (witness): the tracking characterization and first-candidate
retention applied to the demonstration directory. -/
theorem c10_witness :
    ∃ w2 info, cleanup_backups demoPfx demoPol 1700000000 demoWorld =
        Except.ok (w2, info) ∧
      (∀ m, info.months.contains m = true ↔
        ∃ f ∈ (pruneCandidates demoPfx demoWorld.disk).drop demoPol.keep_archives,
          get_month_from_backup_file f = Except.ok m) ∧
      (∀ hi : demoPol.keep_archives < (pruneCandidates demoPfx demoWorld.disk).length,
        (pruneCandidates demoPfx demoWorld.disk).get
          ⟨demoPol.keep_archives, hi⟩ ∉ info.deleted) :=
  c10_head_window_tracking.1 demoPfx demoPol 1700000000 demoWorld
    (by decide) (by decide) (by decide) (by decide)

/-! The make_backup run: dedup hit, failed paths, and encryption
failure. -/

theorem make_backup_dedup {env : RunEnv} {w : World} {e : Entry}
    (hget : Metadata.get_archive w.ledger env.checksum = some e)
    (hdisk : w.disk.contains e.encrypted = true) :
    make_backup env w =
      (World.mk w.disk (writeSort (Metadata.add w.ledger env.checksum env.arch env.now)),
        Except.ok (RunOutcome.mk (!env.hookFailure) false false)) := by
  unfold make_backup
  rw [hget]
  change (if w.disk.contains e.encrypted = true then
      (World.mk w.disk (writeSort (Metadata.add w.ledger env.checksum env.arch env.now)),
        Except.ok (RunOutcome.mk (!env.hookFailure) false false))
    else make_backup_rest env w (Metadata.remove w.ledger env.checksum)) = _
  rw [if_pos hdisk]

theorem make_backup_fresh {env : RunEnv} {w : World}
    (hget : Metadata.get_archive w.ledger env.checksum = none) :
    make_backup env w = make_backup_rest env w w.ledger := by
  unfold make_backup
  rw [hget]

theorem make_backup_stale {env : RunEnv} {w : World} {e : Entry}
    (hget : Metadata.get_archive w.ledger env.checksum = some e)
    (hdisk : w.disk.contains e.encrypted = false) :
    make_backup env w = make_backup_rest env w (Metadata.remove w.ledger env.checksum) := by
  unfold make_backup
  rw [hget]
  change (if w.disk.contains e.encrypted = true then
      (World.mk w.disk (writeSort (Metadata.add w.ledger env.checksum env.arch env.now)),
        Except.ok (RunOutcome.mk (!env.hookFailure) false false))
    else make_backup_rest env w (Metadata.remove w.ledger env.checksum)) = _
  rw [if_neg (by
    intro hmem
    rw [contains_eq_decide_mem] at hdisk hmem
    rw [hmem] at hdisk
    cases hdisk)]

theorem make_backup_rest_gpgfail {env : RunEnv} {w : World} {md : List Entry}
    (hcmp : env.compressOk = true) (hgpg : env.gpgOk = false) :
    make_backup_rest env w md =
      (World.mk w.disk (writeSort (Metadata.add md env.checksum env.arch env.now)),
        Except.error gpgErrMsg) := by
  unfold make_backup_rest
  rw [hcmp, hgpg]
  simp

theorem make_backup_rest_failedpaths {env : RunEnv} {w : World} {md : List Entry}
    (hcmp : env.compressOk = true) (hgpg : env.gpgOk = true)
    (hfail : env.failedPaths.isEmpty = false) :
    make_backup_rest env w md =
      (World.mk (w.disk ++ [env.arch.path_encrypted])
          (writeSort (Metadata.add md env.checksum env.arch env.now)),
        Except.ok (RunOutcome.mk false true false)) := by
  unfold make_backup_rest
  rw [hcmp, hgpg, hfail]
  simp

theorem filter_checksum_map_update (l : List Entry) (chk : String) (now : Rat) :
    (l.map (fun x =>
      if x.open_checksum == chk then
        Entry.mk x.archive x.encrypted x.open_checksum x.created now
      else x)).filter (fun x => x.open_checksum == chk) =
      (l.filter (fun x => x.open_checksum == chk)).map (fun x =>
        if x.open_checksum == chk then
          Entry.mk x.archive x.encrypted x.open_checksum x.created now
        else x) := by
  rw [List.filter_map]
  congr 1
  apply List.filter_congr
  intro a _
  by_cases hc : a.open_checksum = chk
  · simp [hc]
  · simp [hc]

/-- C4: a backup run whose uncompressed archive reproduces a content
hash already in the ledger, while that entry's encrypted file exists on
disk, returns ok (unless a hook failed), creates no new file on disk,
leaves exactly one ledger entry for that hash, and that entry has its
touched field set to the time of the second run with all other fields
unchanged. -/
theorem c4_dedup_idempotent
    (env : RunEnv) (w : World) (e : Entry)
    (hchk : (w.ledger.map (fun x => x.open_checksum)).Nodup)
    (hget : Metadata.get_archive w.ledger env.checksum = some e)
    (hdisk : w.disk.contains e.encrypted = true) :
    ∃ w2, make_backup env w =
        (w2, Except.ok (RunOutcome.mk (!env.hookFailure) false false)) ∧
      w2.disk = w.disk ∧
      (w2.ledger.filter (fun x => x.open_checksum == env.checksum)).length = 1 ∧
      ∃ e2, e2 ∈ w2.ledger ∧ e2.open_checksum = env.checksum ∧
        e2.touched = env.now ∧ e2.archive = e.archive ∧
        e2.encrypted = e.encrypted ∧ e2.created = e.created ∧
        ∀ e3 ∈ w2.ledger, e3.open_checksum = env.checksum → e3 = e2 := by
  obtain ⟨hmem, hechk⟩ := get_archive_eq_some hget
  have hLnodup : w.ledger.Nodup := List.Nodup.of_map _ hchk
  have hsingle : w.ledger.filter (fun x => x.open_checksum == env.checksum) = [e] := by
    apply filter_eq_singleton hLnodup hmem (by simp [hechk])
    intro x hx hqx
    exact List.inj_on_of_nodup_map hchk hx hmem
      (by rw [hechk]; simpa using hqx)
  have hperm : List.Perm
      (writeSort (Metadata.add w.ledger env.checksum env.arch env.now))
      (Metadata.add w.ledger env.checksum env.arch env.now) :=
    List.perm_insertionSort touchedLE _
  rw [make_backup_dedup hget hdisk]
  rw [Metadata.add_update hget] at hperm ⊢
  refine ⟨_, rfl, rfl, ?_, ?_⟩
  · rw [(hperm.filter _).length_eq, filter_checksum_map_update, hsingle]
    rfl
  · refine ⟨Entry.mk e.archive e.encrypted e.open_checksum e.created env.now,
      ?_, hechk, rfl, rfl, rfl, rfl, ?_⟩
    · apply hperm.mem_iff.mpr
      have := List.mem_map_of_mem (fun x =>
        if x.open_checksum == env.checksum then
          Entry.mk x.archive x.encrypted x.open_checksum x.created env.now
        else x) hmem
      simpa [hechk] using this
    · intro e3 he3 hc3
      have he3m := hperm.mem_iff.mp he3
      obtain ⟨x, hx, hxe⟩ := List.mem_map.mp he3m
      have hxchk : x.open_checksum = env.checksum := by
        by_cases hc : x.open_checksum = env.checksum
        · exact hc
        · rw [if_neg (by simpa using hc)] at hxe
          rw [hxe] at hc
          exact absurd hc3 hc
      obtain rfl : x = e :=
        List.inj_on_of_nodup_map hchk hx hmem (hxchk.trans hechk.symm)
      rw [← hxe, if_pos (by simpa using hxchk)]

/-! Demonstration runs for the dedup, failed-paths and encryption
failure flows of make_backup. -/

/-- Archive object of the dedup demonstration run, built at epoch
1700000100. -/
def c4arch : ArchiveInfo :=
  ArchiveInfo.mk 1700000100 "test_1700000100_20231114T081500.tar.gz"

/-- Environment of the dedup demonstration run: the content checksum of
the retained demonstration entry reappears, no path failed, no hook
failed, both subprocesses would succeed, pruning is configured. -/
def c4env : RunEnv :=
  RunEnv.mk "c2" c4arch [] false true true 1700000100 1700000100 (some demoPol) demoPfx

/-- C4 (witness): rerunning the backup of unchanged content on the
demonstration directory returns ok without creating a file, keeps
exactly one ledger entry for the checksum, and that entry equals the
old one except that its touched time advances to the rerun instant. -/
theorem c4_witness :
    ∃ w2, make_backup c4env demoWorld =
        (w2, Except.ok (RunOutcome.mk (!c4env.hookFailure) false false)) ∧
      w2.disk = demoWorld.disk ∧
      (w2.ledger.filter (fun x => x.open_checksum == c4env.checksum)).length = 1 ∧
      ∃ e2, e2 ∈ w2.ledger ∧ e2.open_checksum = c4env.checksum ∧
        e2.touched = c4env.now ∧ e2.archive = demoE2.archive ∧
        e2.encrypted = demoE2.encrypted ∧ e2.created = demoE2.created ∧
        ∀ e3 ∈ w2.ledger, e3.open_checksum = c4env.checksum → e3 = e2 :=
  c4_dedup_idempotent c4env demoWorld demoE2 (by decide) (by decide) (by decide)

/-- Checksum of the failed-paths demonstration run, absent from the
demonstration ledger. -/
def c8chk : String := "c8"

/-- Environment of the failed-paths demonstration run: one path could
not be archived while compression and encryption succeed, and pruning
is configured. -/
def c8env : RunEnv :=
  RunEnv.mk c8chk c4arch ["/home/user/gone"] false true true 1700000100 1700000100
    (some demoPol) demoPfx

/-- C8: in every run in which at least one path failed to be archived,
that proceeds past the dedup check (no ledger hit whose encrypted file
still exists) and whose compression and encryption subprocesses
succeed, make_backup returns the not-ok Result marked created, and
cleanup_backups is not invoked. -/
theorem c8_failed_paths_suppress_cleanup
    (env : RunEnv) (w : World)
    (hdedup : ∀ e, Metadata.get_archive w.ledger env.checksum = some e →
      w.disk.contains e.encrypted = false)
    (hcmp : env.compressOk = true) (hgpg : env.gpgOk = true)
    (hfail : env.failedPaths ≠ []) :
    ∃ w2, make_backup env w = (w2, Except.ok (RunOutcome.mk false true false)) := by
  have hfe : env.failedPaths.isEmpty = false := by
    cases hp : env.failedPaths with
    | nil => exact absurd hp hfail
    | cons a l => simp [hp]
  cases hget : Metadata.get_archive w.ledger env.checksum with
  | none =>
    rw [make_backup_fresh hget, make_backup_rest_failedpaths hcmp hgpg hfe]
    exact ⟨_, rfl⟩
  | some e =>
    rw [make_backup_stale hget (hdedup e hget), make_backup_rest_failedpaths hcmp hgpg hfe]
    exact ⟨_, rfl⟩

/-- C8 (witness): the failed-paths demonstration run on the
demonstration directory ends not-ok, created, with no retention pass. -/
theorem c8_witness :
    ∃ w2, make_backup c8env demoWorld =
      (w2, Except.ok (RunOutcome.mk false true false)) :=
  c8_failed_paths_suppress_cleanup c8env demoWorld
    (by
      intro e h
      rw [show Metadata.get_archive demoWorld.ledger c8env.checksum = none from by decide] at h
      cases h)
    (by decide) (by decide) (by decide)

/-- Checksum of the encryption-failure demonstration run. -/
def c3chk : String := "c3new"

/-- Archive object of the encryption-failure demonstration run. -/
def c3arch : ArchiveInfo :=
  ArchiveInfo.mk 1700000200 "test_1700000200_20231114T081640.tar.gz"

/-- Environment of the encryption-failure demonstration run: gpg exits
non-zero, everything before it succeeds. -/
def c3env : RunEnv :=
  RunEnv.mk c3chk c3arch [] false true false 1700000200 1700000200 (some demoPol) demoPfx

/-- Empty backup directory for the encryption-failure run. -/
def c3world : World := World.mk [] []

/-- C3 (counterexample): a run on an empty backup directory in which gpg
exits non-zero fails fatally, yet the persisted ledger holds an entry
whose encrypted filename was never written to disk. -/
theorem c3_counterexample :
    (make_backup c3env c3world).2 = Except.error gpgErrMsg ∧
      ∃ e, e ∈ (make_backup c3env c3world).1.ledger ∧
        e.encrypted = c3env.arch.path_encrypted ∧
        (make_backup c3env c3world).1.disk.contains e.encrypted = false := by
  refine ⟨?_, Entry.mk c3arch.compressed_name c3arch.path_encrypted c3chk
    (c3arch.time : Rat) (c3arch.time : Rat), ?_, ?_, ?_⟩ <;> decide

/-- C3 (amended): when the encryption subprocess exits non-zero in a run
that reaches it (no dedup shortcut, compression succeeded), the run
fails fatally, the disk is unchanged, and the ledger as persisted just
before the encryption attempt contains an entry whose encrypted
filename names a file that was never written to disk. -/
theorem c3_gpg_failure_leaves_dangling_entry
    (env : RunEnv) (w : World)
    (hchk : (w.ledger.map (fun x => x.open_checksum)).Nodup)
    (hdedup : ∀ e, Metadata.get_archive w.ledger env.checksum = some e →
      w.disk.contains e.encrypted = false)
    (hcmp : env.compressOk = true) (hgpg : env.gpgOk = false)
    (hfresh : w.disk.contains env.arch.path_encrypted = false) :
    ∃ w2, make_backup env w = (w2, Except.error gpgErrMsg) ∧
      w2.disk = w.disk ∧
      ∃ e, e ∈ w2.ledger ∧ e.encrypted = env.arch.path_encrypted ∧
        w2.disk.contains e.encrypted = false := by
  have key : ∀ md : List Entry, Metadata.get_archive md env.checksum = none →
      ∃ e, e ∈ writeSort (Metadata.add md env.checksum env.arch env.now) ∧
        e.encrypted = env.arch.path_encrypted := by
    intro md hnone
    rw [Metadata.add_new hnone]
    refine ⟨Entry.mk env.arch.compressed_name env.arch.path_encrypted env.checksum
      (env.arch.time : Rat) (env.arch.time : Rat), ?_, rfl⟩
    apply (List.perm_insertionSort touchedLE _).mem_iff.mpr
    simp
  cases hget : Metadata.get_archive w.ledger env.checksum with
  | none =>
    obtain ⟨e, he, henc⟩ := key w.ledger hget
    rw [make_backup_fresh hget, make_backup_rest_gpgfail hcmp hgpg]
    exact ⟨_, rfl, rfl, e, he, henc, by rw [henc]; exact hfresh⟩
  | some e0 =>
    have hLnodup : w.ledger.Nodup := List.Nodup.of_map _ hchk
    have hrem : Metadata.get_archive (Metadata.remove w.ledger env.checksum)
        env.checksum = none := by
      rw [Metadata.remove_some hget]
      apply (get_archive_eq_none_iff _ _).mpr
      intro x hx hchkx
      have hxl : x ∈ w.ledger := List.mem_of_mem_erase hx
      obtain ⟨hmem0, hchk0⟩ := get_archive_eq_some hget
      obtain rfl : x = e0 :=
        List.inj_on_of_nodup_map hchk hxl hmem0 (hchkx.trans hchk0.symm)
      exact absurd hx hLnodup.not_mem_erase
    obtain ⟨e, he, henc⟩ := key _ hrem
    rw [make_backup_stale hget (hdedup e0 hget), make_backup_rest_gpgfail hcmp hgpg]
    exact ⟨_, rfl, rfl, e, he, henc, by rw [henc]; exact hfresh⟩

/-- C3 (witness of the amended statement): the encryption-failure
demonstration run aborts with the gpg error while its persisted ledger
points at the never-written encrypted file. -/
theorem c3_witness :
    ∃ w2, make_backup c3env c3world = (w2, Except.error gpgErrMsg) ∧
      w2.disk = c3world.disk ∧
      ∃ e, e ∈ w2.ledger ∧ e.encrypted = c3env.arch.path_encrypted ∧
        w2.disk.contains e.encrypted = false :=
  c3_gpg_failure_leaves_dangling_entry c3env c3world (by decide)
    (by
      intro e h
      rw [show Metadata.get_archive c3world.ledger c3env.checksum = none from by decide] at h
      cases h)
    (by decide) (by decide) (by decide)
